import Mathlib

/-! Verification of the roaring-set memtable tree.

Shallow embedding of `adapters/repos/db/lsmkv/roaringset/binary_search_tree.go`.

* A `*BinarySearchNode` pointer is a value of the inductive type `BinarySearchNode`: the
  constructor `nil` is the nil pointer and `node` is a pointer to a struct, whose `left` and
  `right` fields are the two subtrees.
* The `parent` field is a back-reference.  It is represented by the list of ancestors of the
  node (`Frame`s, nearest first); the first frame is what `parent` points to, the second one is
  the grandparent, and the empty list means `parent == nil`.
* A `*sroar.Bitmap` is a finite set of ids (`Finset Nat`); ids are `uint64` values on which no
  arithmetic is done.
* A `[]byte` key is a list of bytes, `List (Fin 256)`.
* A nil-pointer dereference and a failed precondition of the rebalancer are results of type
  `Error`, next to the one returned error `NotFound`.
-/

namespace roaringset

/-! ## Keys -/

/-- A key is a byte string (`[]byte`). -/
abbrev Key := List (Fin 256)

/-- The Go function `bytes.Compare`: `-1`, `0` or `1` for the unsigned byte-wise lexicographic order. -/
def bytesCompare : Key → Key → Int
  | [], [] => 0
  | [], _ :: _ => -1
  | _ :: _, [] => 1
  | a :: as, b :: bs =>
    if a < b then -1 else if b < a then 1 else bytesCompare as bs

/-- The Go function `bytes.Equal`. -/
def bytesEqual (a b : Key) : Bool := decide (a = b)

/-! ## Bitmap layers -/

/-- The two bitmaps stored with a key (`BitmapLayer`). -/
structure BitmapLayer where
  Additions : Finset Nat
  Deletions : Finset Nat
deriving DecidableEq

/-- The argument of an insert: the ids to add and the ids to delete (`type Insert struct`). -/
structure Insert where
  Additions : List Nat
  Deletions : List Nat
deriving DecidableEq

/-- Source `newSroarFromList`: a fresh bitmap on which `SetMany(list)` is called. -/
def newSroarFromList (list : List Nat) : Finset Nat :=
  list.foldl (fun bm x => insert x bm) ∅

/-- The layer a new node is created with. -/
def newLayer (values : Insert) : BitmapLayer :=
  { Additions := newSroarFromList values.Additions
    Deletions := newSroarFromList values.Deletions }

/-- First loop of the merge: `Deletions.Remove(x); Additions.Set(x)` for every added id. -/
def mergeAdditions (v : BitmapLayer) (xs : List Nat) : BitmapLayer :=
  xs.foldl (fun w x => { Additions := insert x w.Additions, Deletions := w.Deletions.erase x }) v

/-- Second loop of the merge: `Additions.Remove(x); Deletions.Set(x)` for every deleted id. -/
def mergeDeletions (v : BitmapLayer) (xs : List Nat) : BitmapLayer :=
  xs.foldl (fun w x => { Additions := w.Additions.erase x, Deletions := insert x w.Deletions }) v

/-- The merge that `insert` does at a node whose key matches: the two loops in sequence. -/
def mergeLayer (v : BitmapLayer) (values : Insert) : BitmapLayer :=
  mergeDeletions (mergeAdditions v values.Additions) values.Deletions

/-! ## Nodes, ancestors and results -/

/-- A `*BinarySearchNode`: either nil or a node with its key, value, children and colour. -/
inductive BinarySearchNode where
  | nil : BinarySearchNode
  | node (Key : Key) (Value : BitmapLayer) (left right : BinarySearchNode)
      (colourIsRed : Bool) : BinarySearchNode
deriving DecidableEq

/-- The tree: its root pointer (`type BinarySearchTree struct`). -/
structure BinarySearchTree where
  root : BinarySearchNode
deriving DecidableEq

/-- What can go wrong: `NotFound` is the error value `ent.NotFound` that `Get` returns, the
other two are faults (a nil pointer is dereferenced; the rebalancer finds a red parent that has
no parent itself). -/
inductive Error where
  | NotFound
  | nilDereference
  | missingGrandparent
deriving DecidableEq

/-- An ancestor of a node, seen from below: the fields of the ancestor, on which side the node
below hangs (`childIsLeft`), and the other child of the ancestor (`sibling`). -/
structure Frame where
  childIsLeft : Bool
  Key : Key
  Value : BitmapLayer
  sibling : BinarySearchNode
  colourIsRed : Bool
deriving DecidableEq

/-- The ancestor node again, once the subtree below it is known. -/
def Frame.fill (f : Frame) (child : BinarySearchNode) : BinarySearchNode :=
  if f.childIsLeft then .node f.Key f.Value child f.sibling f.colourIsRed
  else .node f.Key f.Value f.sibling child f.colourIsRed

/-- The node without a parent that is reached from `child` through the ancestors `up`. -/
def plug : List Frame → BinarySearchNode → BinarySearchNode
  | [], child => child
  | f :: up, child => plug up (f.fill child)

/-- The memory after `insert` as the caller sees it: `atRoot` is the node that the root pointer
of the caller refers to (with everything now below it), `newRoot` is the pointer that `insert`
returns. -/
structure Outcome where
  atRoot : BinarySearchNode
  newRoot : BinarySearchNode
deriving DecidableEq

/-- Source `IsRed`: false on nil. -/
def BinarySearchNode.IsRed : BinarySearchNode → Bool
  | .nil => false
  | .node _ _ _ _ c => c

/-- Source `IsNil`. -/
def BinarySearchNode.IsNil : BinarySearchNode → Bool
  | .nil => true
  | .node _ _ _ _ _ => false

/-- The type of `rbtree.Rebalance` in this embedding: it is handed the new node together with
its ancestors. -/
abbrev Rebalancer := List Frame → BinarySearchNode → Except Error Outcome

/-! ## The rebalancer -/

/-- The node recoloured black (`SetRed(false)`); nil has no colour and stays nil. -/
def BinarySearchNode.blacken : BinarySearchNode → BinarySearchNode
  | .nil => .nil
  | .node k v l r _ => .node k v l r false

/-- Modelled from the spec: the rotation step of `rbtree.Rebalance`, which is not among the
sources.  Section 4.5, red parent and black or absent uncle: "a single rotation when the
inserted node and its parent are on the same side of the grandparent, a rotation of the parent
first [...] followed by a rotation of the grandparent otherwise — then recolor the new subtree
root black and its new child red".  The node is `node k v l r c`, its parent `p`, its
grandparent `g`.  The result is the new subtree root and, second, the old grandparent as it
hangs below that root. -/
def rotate (p g : Frame) (k : Key) (v : BitmapLayer) (l r : BinarySearchNode) (c : Bool) :
    BinarySearchNode × BinarySearchNode :=
  match g.childIsLeft, p.childIsLeft with
  | true, true =>
    (.node p.Key p.Value (.node k v l r c) (.node g.Key g.Value p.sibling g.sibling true) false,
      .node g.Key g.Value p.sibling g.sibling true)
  | true, false =>
    (.node k v (.node p.Key p.Value p.sibling l p.colourIsRed)
        (.node g.Key g.Value r g.sibling true) false,
      .node g.Key g.Value r g.sibling true)
  | false, true =>
    (.node k v (.node g.Key g.Value g.sibling l true)
        (.node p.Key p.Value r p.sibling p.colourIsRed) false,
      .node g.Key g.Value g.sibling l true)
  | false, false =>
    (.node p.Key p.Value (.node g.Key g.Value g.sibling p.sibling true) (.node k v l r c) false,
      .node g.Key g.Value g.sibling p.sibling true)

/-- Modelled from the spec: `rbtree.Rebalance` is called by `insert` but package `rbtree` is
not among the sources.  This is the insertion fixup of section 4.5, "operating on the freshly
inserted red node and walking upward".  The result pointer is the final local subtree root when
rebalancing relinked the root of the whole tree and nil otherwise: `Insert` stores every non-nil
result in the root pointer of the tree, and section 4.2 has the root pointer updated "if
rebalancing relinks the root". -/
def Rebalance : List Frame → BinarySearchNode → Except Error Outcome
  | _, .nil => .error .nilDereference
  -- the node is the root: recolour black and stop
  | [], .node k v l r _ => .ok { atRoot := .node k v l r false, newRoot := .nil }
  | [p], .node k v l r c =>
    -- the parent is black: stop; a red parent needs a grandparent
    if p.colourIsRed then .error .missingGrandparent
    else .ok { atRoot := p.fill (.node k v l r c), newRoot := .nil }
  | p :: g :: up, .node k v l r c =>
    if p.colourIsRed then
      if g.sibling.IsRed then
        -- red uncle: parent and uncle black, grandparent red, go on from the grandparent
        Rebalance up
          ({ g with sibling := g.sibling.blacken, colourIsRed := true }.fill
            ({ p with colourIsRed := false }.fill (.node k v l r c)))
      else
        -- black or absent uncle: rotate
        match up with
        | [] => .ok { atRoot := (rotate p g k v l r c).2, newRoot := (rotate p g k v l r c).1 }
        | f :: rest => .ok { atRoot := plug (f :: rest) (rotate p g k v l r c).1, newRoot := .nil }
    else
      .ok { atRoot := plug (p :: g :: up) (.node k v l r c), newRoot := .nil }

/-! ## The operations of the source -/

/-- Source `(*BinarySearchNode).insert`.  `up` are the ancestors of the receiver (its chain of
`parent` pointers) and `rebalance` stands for `rbtree.Rebalance`. -/
def BinarySearchNode.insert (rebalance : Rebalancer) (up : List Frame) :
    BinarySearchNode → Key → Insert → Except Error Outcome
  | .nil, _, _ => .error .nilDereference
  | .node k v l r c, key, values =>
    if bytesEqual key k then
      .ok { atRoot := plug up (.node k (mergeLayer v values) l r c), newRoot := .nil }
    else if bytesCompare key k < 0 then
      match l with
      | .node _ _ _ _ _ =>
        BinarySearchNode.insert rebalance
          ({ childIsLeft := true, Key := k, Value := v, sibling := r, colourIsRed := c } :: up)
          l key values
      | .nil =>
        rebalance
          ({ childIsLeft := true, Key := k, Value := v, sibling := r, colourIsRed := c } :: up)
          (.node key (newLayer values) .nil .nil true)
    else
      match r with
      | .node _ _ _ _ _ =>
        BinarySearchNode.insert rebalance
          ({ childIsLeft := false, Key := k, Value := v, sibling := l, colourIsRed := c } :: up)
          r key values
      | .nil =>
        rebalance
          ({ childIsLeft := false, Key := k, Value := v, sibling := l, colourIsRed := c } :: up)
          (.node key (newLayer values) .nil .nil true)

/-- Source `(*BinarySearchTree).Insert`. -/
def BinarySearchTree.Insert (rebalance : Rebalancer) (t : BinarySearchTree) (key : Key)
    (values : Insert) : Except Error BinarySearchTree :=
  match t.root with
  | .nil => .ok { root := .node key (newLayer values) .nil .nil false }
  | .node k v l r c =>
    match BinarySearchNode.insert rebalance [] (.node k v l r c) key values with
    | .error e => .error e
    | .ok out =>
      let root := match out.newRoot with
        | .nil => out.atRoot
        | .node k1 v1 l1 r1 c1 => .node k1 v1 l1 r1 c1
      match root with
      | .nil => .error .nilDereference
      | .node k2 v2 l2 r2 _ => .ok { root := .node k2 v2 l2 r2 false }

/-- Source `(*BinarySearchNode).get`. -/
def BinarySearchNode.get : BinarySearchNode → Key → Except Error BitmapLayer
  | .nil, _ => .error .nilDereference
  | .node k v l r _, key =>
    if bytesEqual k key then .ok v
    else if bytesCompare key k < 0 then
      match l with
      | .nil => .error .NotFound
      | .node _ _ _ _ _ => BinarySearchNode.get l key
    else
      match r with
      | .nil => .error .NotFound
      | .node _ _ _ _ _ => BinarySearchNode.get r key

/-- Source `(*BinarySearchTree).Get`. -/
def BinarySearchTree.Get (t : BinarySearchTree) (key : Key) : Except Error BitmapLayer :=
  match t.root with
  | .nil => .error .NotFound
  | .node k v l r c => BinarySearchNode.get (.node k v l r c) key

/-- Source `(*BinarySearchNode).flattenInOrder`. -/
def BinarySearchNode.flattenInOrder : BinarySearchNode → Except Error (List BinarySearchNode)
  | .nil => .error .nilDereference
  | .node k v l r c =>
    let left : Except Error (List BinarySearchNode) :=
      match l with
      | .nil => .ok []
      | .node _ _ _ _ _ => BinarySearchNode.flattenInOrder l
    let right : Except Error (List BinarySearchNode) :=
      match r with
      | .nil => .ok []
      | .node _ _ _ _ _ => BinarySearchNode.flattenInOrder r
    match left, right with
    | .ok ls, .ok rs => .ok (ls ++ ([.node k v l r c] ++ rs))
    | .error e, _ => .error e
    | _, .error e => .error e

/-- Source `(*BinarySearchTree).FlattenInOrder`: nil (the empty sequence) for the empty tree. -/
def BinarySearchTree.FlattenInOrder (t : BinarySearchTree) :
    Except Error (List BinarySearchNode) :=
  match t.root with
  | .nil => .ok []
  | .node k v l r c => BinarySearchNode.flattenInOrder (.node k v l r c)

/-- The tree after a sequence of `Insert` calls on the empty tree. -/
def insertAll (rebalance : Rebalancer) (ops : List (Key × Insert)) :
    Except Error BinarySearchTree :=
  ops.foldlM (fun t op => t.Insert rebalance op.1 op.2) { root := .nil }

/-! ## Predicates used to state the properties -/

/-- Key order: `bytes.Compare(a, b) < 0`. -/
def keyLt (a b : Key) : Prop := bytesCompare a b < 0

instance (a b : Key) : Decidable (keyLt a b) := by unfold keyLt; infer_instance

/-- The keys and values of a subtree, left to right. -/
def BinarySearchNode.entries : BinarySearchNode → List (Key × BitmapLayer)
  | .nil => []
  | .node k v l r _ => entries l ++ (k, v) :: entries r

/-- Key of a node (`n.Key`); nil has none, the empty key stands in. -/
def BinarySearchNode.key : BinarySearchNode → Key
  | .nil => []
  | .node k _ _ _ _ => k

/-- Value of a node (`n.Value`); nil has none, the empty layer stands in. -/
def BinarySearchNode.value : BinarySearchNode → BitmapLayer
  | .nil => ⟨∅, ∅⟩
  | .node _ v _ _ _ => v

/-- A list of keys is strictly increasing. -/
def StrictlyIncreasing (ks : List Key) : Prop := ks.Pairwise keyLt

/-- No red node has a red child. -/
def BinarySearchNode.noRedRed : BinarySearchNode → Bool
  | .nil => true
  | .node _ _ l r c => (!c || (!l.IsRed && !r.IsRed)) && l.noRedRed && r.noRedRed

/-- For every path from the node down to a missing child, the number of black nodes on it. -/
def BinarySearchNode.pathBlackCounts : BinarySearchNode → List Nat
  | .nil => [0]
  | .node _ _ l r c =>
    (l.pathBlackCounts ++ r.pathBlackCounts).map (fun x => if c then x else x + 1)

/-- All paths from the node to a missing child pass through the same number of black nodes. -/
def BinarySearchNode.equalBlackHeight (n : BinarySearchNode) : Prop :=
  ∀ x ∈ n.pathBlackCounts, ∀ y ∈ n.pathBlackCounts, x = y

/-- The three red-black conditions of a tree. -/
def BinarySearchTree.isRedBlack (t : BinarySearchTree) : Prop :=
  t.root.IsRed = false ∧ t.root.noRedRed = true ∧ t.root.equalBlackHeight

instance (ks : List Key) : Decidable (StrictlyIncreasing ks) := by
  unfold StrictlyIncreasing; infer_instance

instance (n : BinarySearchNode) : Decidable n.equalBlackHeight := by
  unfold BinarySearchNode.equalBlackHeight; infer_instance

instance (t : BinarySearchTree) : Decidable t.isRedBlack := by
  unfold BinarySearchTree.isRedBlack; infer_instance

/-! ## Ancestors: what lies left and right of the hole -/

/-- The entries that come before the subtree below the ancestors `up`. -/
def entriesBefore : List Frame → List (Key × BitmapLayer)
  | [] => []
  | f :: up =>
    entriesBefore up ++ (if f.childIsLeft then [] else f.sibling.entries ++ [(f.Key, f.Value)])

/-- The entries that come after the subtree below the ancestors `up`. -/
def entriesAfter : List Frame → List (Key × BitmapLayer)
  | [] => []
  | f :: up =>
    (if f.childIsLeft then (f.Key, f.Value) :: f.sibling.entries else []) ++ entriesAfter up

/-- The root pointer that `Insert` ends with, before it is coloured black: the returned pointer
when it is not nil, the old root pointer otherwise. -/
def Outcome.pick (out : Outcome) : BinarySearchNode :=
  match out.newRoot with
  | .nil => out.atRoot
  | .node k v l r c => .node k v l r c

/-! ## Red-black conditions along the ancestors -/

/-- Every path from the node to a missing child passes through exactly `h` black nodes. -/
def blackHeightIs : BinarySearchNode → Nat → Prop
  | .nil, h => h = 0
  | .node _ _ l r true, h => blackHeightIs l h ∧ blackHeightIs r h
  | .node _ _ _ _ false, 0 => False
  | .node _ _ l r false, h + 1 => blackHeightIs l h ∧ blackHeightIs r h

/-- The nearest ancestor exists and is black. -/
def headBlack : List Frame → Prop
  | [] => False
  | g :: _ => g.colourIsRed = false

/-- The ancestors `up` are what a red-black tree with black root leaves around a hole that a
subtree of black height `h` fills. -/
def ancestorsOK : List Frame → Nat → Prop
  | [], _ => True
  | f :: up, h =>
    f.sibling.noRedRed = true ∧ blackHeightIs f.sibling h ∧
      (f.colourIsRed = true → f.sibling.IsRed = false ∧ headBlack up) ∧
      ancestorsOK up (if f.colourIsRed then h else h + 1)

/-! ## The sorted association list that a tree stands for -/

/-- The entries are in strictly increasing key order. -/
def sortedEntries (es : List (Key × BitmapLayer)) : Prop :=
  es.Pairwise (fun a b => keyLt a.1 b.1)

/-- Insertion into a sorted association list: merge at an equal key, else a new entry. -/
def upsert (key : Key) (values : Insert) : List (Key × BitmapLayer) → List (Key × BitmapLayer)
  | [] => [(key, newLayer values)]
  | (k, v) :: rest =>
    if key = k then (k, mergeLayer v values) :: rest
    else if keyLt key k then (key, newLayer values) :: (k, v) :: rest
    else (k, v) :: upsert key values rest

/-- The value stored with a key in an association list. -/
def lookup (key : Key) : List (Key × BitmapLayer) → Option BitmapLayer
  | [] => none
  | (k, v) :: rest => if key = k then some v else lookup key rest

/-- The result of `Get` for a looked-up value. -/
def getResult : Option BitmapLayer → Except Error BitmapLayer
  | some v => .ok v
  | none => .error .NotFound

/-! ## Trees that satisfy the invariants of the data model -/

/-- The invariants of a tree: search-tree order of the keys, black root, no red node with a red
child, and one black height. -/
structure WellFormed (t : BinarySearchTree) : Prop where
  sorted : sortedEntries t.root.entries
  rootBlack : t.root.IsRed = false
  noRedRed : t.root.noRedRed = true
  balanced : ∃ h, blackHeightIs t.root h

/-- The association list after a sequence of inserts. -/
def upsertAll (ops : List (Key × Insert)) (es : List (Key × BitmapLayer)) :
    List (Key × BitmapLayer) :=
  ops.foldl (fun acc op => upsert op.1 op.2 acc) es

/-! ## Flattening -/

/-- The nodes of a subtree, left to right. -/
def BinarySearchNode.nodes : BinarySearchNode → List BinarySearchNode
  | .nil => []
  | .node k v l r c => l.nodes ++ (.node k v l r c :: r.nodes)

/-! ## Insert of a key that is present, on any tree -/

/-- The subtree with the layer merged at the node that the descent for `key` reaches. -/
def BinarySearchNode.mergeAt : BinarySearchNode → Key → Insert → BinarySearchNode
  | .nil, _, _ => .nil
  | .node k v l r c, key, values =>
    if key = k then .node k (mergeLayer v values) l r c
    else if keyLt key k then .node k v (l.mergeAt key values) r c
    else .node k v l (r.mergeAt key values) c

/-- The structure of a subtree: keys, links and colours, without the values. -/
inductive Shape where
  | nil : Shape
  | node (Key : Key) (left right : Shape) (colourIsRed : Bool) : Shape
deriving DecidableEq

/-- The structure of a subtree. -/
def BinarySearchNode.shape : BinarySearchNode → Shape
  | .nil => .nil
  | .node k _ l r c => .node k l.shape r.shape c

/-- The tree of the witness for C9: key 1 at the black root, key 0 at its red left child. -/
def twoNodeTree : BinarySearchTree :=
  { root := .node [1] { Additions := {1}, Deletions := ∅ }
      (.node [0] { Additions := {2}, Deletions := ∅ } .nil .nil true) .nil false }

/-! ## Flattening as a step on the memory -/

/-- Source `(*BinarySearchNode).flattenInOrder` with the memory made explicit: the result is
the subtree as it is after the call, next to the returned sequence.  The memory goes from the
call on the left child to the call on the right child and from there to the caller. -/
def BinarySearchNode.flattenInOrderRun :
    BinarySearchNode → Except Error (BinarySearchNode × List BinarySearchNode)
  | .nil => .error .nilDereference
  | .node k v l r c =>
    let left : Except Error (BinarySearchNode × List BinarySearchNode) :=
      match l with
      | .nil => .ok (.nil, [])
      | .node _ _ _ _ _ => BinarySearchNode.flattenInOrderRun l
    let right : Except Error (BinarySearchNode × List BinarySearchNode) :=
      match r with
      | .nil => .ok (.nil, [])
      | .node _ _ _ _ _ => BinarySearchNode.flattenInOrderRun r
    match left, right with
    | .ok (l1, ls), .ok (r1, rs) =>
      .ok (.node k v l1 r1 c, ls ++ ([.node k v l1 r1 c] ++ rs))
    | .error e, _ => .error e
    | _, .error e => .error e

/-- Source `(*BinarySearchTree).FlattenInOrder` with the memory made explicit: the tree after
the call and the returned sequence. -/
def BinarySearchTree.FlattenInOrderRun (t : BinarySearchTree) :
    Except Error (BinarySearchTree × List BinarySearchNode) :=
  match t.root with
  | .nil => .ok ({ root := .nil }, [])
  | .node k v l r c =>
    match BinarySearchNode.flattenInOrderRun (.node k v l r c) with
    | .error e => .error e
    | .ok (root, nodes) => .ok ({ root := root }, nodes)

/-- Two calls of `FlattenInOrder` in sequence, the second on the memory that the first leaves:
the tree after both calls and the two returned sequences. -/
def BinarySearchTree.FlattenInOrderTwice (t : BinarySearchTree) :
    Except Error (BinarySearchTree × List BinarySearchNode × List BinarySearchNode) :=
  match t.FlattenInOrderRun with
  | .error e => .error e
  | .ok (t1, first) =>
    match t1.FlattenInOrderRun with
    | .error e => .error e
    | .ok (t2, second) => .ok (t2, first, second)

/-- A rebalancer that hands back a red node, whatever it is given (for the witness of C13). -/
def redRebalancer : Rebalancer :=
  fun _ _ => .ok { atRoot := .nil
                   newRoot := .node [7] { Additions := ∅, Deletions := ∅ } .nil .nil true }

/-- A tree that is not red-black, its root is red (for the witness of C13). -/
def redRootTree : BinarySearchTree :=
  { root := .node [1] { Additions := {1}, Deletions := ∅ } .nil .nil true }

end roaringset

namespace esvector

/-! ## The bulk response merge of `adapters/repos/esvector/batch.go`

The response body is decoded by `encoding/json`; the functions below start from the outcome of
that decoding.  `ε` is the type of a decoded JSON value (`interface{}`) and `format` stands for
`fmt.Errorf("%v", err)` on such a value: it gives the message of the new error.  An `error`
value is its message, an absent error is `none`. -/

/-- Runtime faults of the merge: an index past the end of a slice, a nil pointer that is
dereferenced. -/
inductive Fault where
  | indexOutOfRange
  | nilDereference
deriving DecidableEq

/-- Source `bulkIndexItem`: the decoded `Error` value, `none` for a null or absent one. -/
structure bulkIndexItem (ε : Type) where
  Error : Option ε
deriving DecidableEq

/-- Source `bulkItem`: `Index` is a pointer, `none` when the item has no index record. -/
structure bulkItem (ε : Type) where
  Index : Option (bulkIndexItem ε)
deriving DecidableEq

/-- Source `bulkIndexResponse`. -/
structure bulkIndexResponse (ε : Type) where
  Errors : Bool
  Items : List (bulkItem ε)
deriving DecidableEq

/-- An entry of `kinds.BatchActions` or of `kinds.BatchThings`.  Both types are declared in
package `kinds`, which is not among the sources; the merge reads and writes the field `Err`
only, and `Concept` stands for the other fields (the action or thing, its vector). -/
structure BatchEntry (α : Type) where
  Err : Option String
  Concept : α
deriving DecidableEq

/-- The loop of `mergeBatchActionsWithErrors` (lines 98 to 111) and, word for word, of
`mergeBatchThingsWithErrors` (lines 176 to 189), from the entry at hand on.  The first argument
is the counter `bulkIndex`, the list is what is left of `batch`; the result is that part of
`batch` after the loop. -/
def mergeLoop {α ε : Type} (format : ε → String) (items : List (bulkItem ε)) :
    Nat → List (BatchEntry α) → Except Fault (List (BatchEntry α))
  | _, [] => .ok []
  | bulkIndex, single :: rest =>
    match single.Err with
    | some _ =>
      -- already had a validation error: continue
      match mergeLoop format items bulkIndex rest with
      | .error f => .error f
      | .ok out => .ok (single :: out)
    | none =>
      match items[bulkIndex]? with
      | none => .error .indexOutOfRange
      | some item =>
        match item.Index with
        | none => .error .nilDereference
        | some index =>
          match mergeLoop format items (bulkIndex + 1) rest with
          | .error f => .error f
          | .ok out =>
            match index.Error with
            | some err => .ok ({ single with Err := some (format err) } :: out)
            | none => .ok (single :: out)

/-- Source `mergeBatchActionsWithErrors`.  `decoded` is the outcome of decoding the response
body; the result is the returned pair of batch and error. -/
def mergeBatchActionsWithErrors {α ε : Type} (format : ε → String)
    (batch : List (BatchEntry α)) (decoded : Except String (bulkIndexResponse ε)) :
    Except Fault (List (BatchEntry α) × Option String) :=
  match decoded with
  | .error err => .ok ([], some err)
  | .ok parsed =>
    if !parsed.Errors then
      -- no need to check for error positions if there are none
      .ok (batch, none)
    else
      match mergeLoop format parsed.Items 0 batch with
      | .error f => .error f
      | .ok out => .ok (out, none)

/-- Source `mergeBatchThingsWithErrors`. -/
def mergeBatchThingsWithErrors {α ε : Type} (format : ε → String)
    (batch : List (BatchEntry α)) (decoded : Except String (bulkIndexResponse ε)) :
    Except Fault (List (BatchEntry α) × Option String) :=
  match decoded with
  | .error err => .ok ([], some err)
  | .ok parsed =>
    if !parsed.Errors then
      -- no need to check for error positions if there are none
      .ok (batch, none)
    else
      match mergeLoop format parsed.Items 0 batch with
      | .error f => .error f
      | .ok out => .ok (out, none)

/-- The number of entries of the batch without a prior error. -/
def pending {α : Type} (batch : List (BatchEntry α)) : Nat :=
  (batch.filter (fun e => e.Err.isNone)).length

/-- The number of entries without a prior error before position `i`. -/
def rank {α : Type} (batch : List (BatchEntry α)) (i : Nat) : Nat :=
  pending (batch.take i)

/-- A batch for the witnesses: the first entry failed validation, the other two were sent. -/
def sampleBatch : List (BatchEntry Nat) :=
  [{ Err := some "invalid", Concept := 0 }, { Err := none, Concept := 1 },
    { Err := none, Concept := 2 }]

/-- The items of a response for `sampleBatch`: the first one succeeded, the second one
failed. -/
def sampleItems : List (bulkItem String) :=
  [{ Index := some { Error := none } }, { Index := some { Error := some "boom" } }]

end esvector

namespace roaringset

/-! ## Keys: `bytes.Compare` is a strict total order -/

theorem bytesCompare_self (a : Key) : bytesCompare a a = 0 := by
  induction a with
  | nil => rfl
  | cons x xs ih => simp [bytesCompare, ih]

theorem eq_of_bytesCompare_eq_zero (a b : Key) (h : bytesCompare a b = 0) : a = b := by
  induction a generalizing b with
  | nil =>
    cases b with
    | nil => rfl
    | cons y ys => simp [bytesCompare] at h
  | cons x xs ih =>
    cases b with
    | nil => simp [bytesCompare] at h
    | cons y ys =>
      simp only [bytesCompare] at h
      rcases lt_trichotomy x y with h1 | h1 | h1
      · simp [h1] at h
      · subst h1
        simp only [lt_irrefl, if_false] at h
        rw [ih ys h]
      · simp [h1, lt_asymm h1] at h

theorem keyLt_irrefl (a : Key) : ¬ keyLt a a := by
  simp [keyLt, bytesCompare_self]

theorem keyLt_trans {a b c : Key} (hab : keyLt a b) (hbc : keyLt b c) : keyLt a c := by
  unfold keyLt at *
  induction a generalizing b c with
  | nil =>
    cases c with
    | nil => cases b <;> simp [bytesCompare] at hab hbc
    | cons z zs => simp [bytesCompare]
  | cons x xs ih =>
    cases b with
    | nil => simp [bytesCompare] at hab
    | cons y ys =>
      cases c with
      | nil => simp [bytesCompare] at hbc
      | cons z zs =>
        simp only [bytesCompare] at hab hbc ⊢
        rcases lt_trichotomy x y with h1 | h1 | h1
        · rcases lt_trichotomy y z with h2 | h2 | h2
          · simp [lt_trans h1 h2]
          · subst h2
            simp [h1]
          · simp [h2, lt_asymm h2] at hbc
        · subst h1
          simp only [lt_irrefl, if_false] at hab
          rcases lt_trichotomy x z with h2 | h2 | h2
          · simp [h2]
          · subst h2
            simp only [lt_irrefl, if_false] at hbc ⊢
            exact ih hab hbc
          · simp [h2, lt_asymm h2] at hbc
        · simp [h1, lt_asymm h1] at hab

theorem keyLt_total (a b : Key) : keyLt a b ∨ a = b ∨ keyLt b a := by
  unfold keyLt
  induction a generalizing b with
  | nil =>
    cases b with
    | nil => simp
    | cons y ys => simp [bytesCompare]
  | cons x xs ih =>
    cases b with
    | nil => simp [bytesCompare]
    | cons y ys =>
      simp only [bytesCompare]
      rcases lt_trichotomy x y with h | h | h
      · simp [h]
      · subst h
        simp only [lt_irrefl, if_false]
        rcases ih ys with h | h | h
        · exact Or.inl h
        · exact Or.inr (Or.inl (by rw [h]))
        · exact Or.inr (Or.inr h)
      · simp [h, lt_asymm h]

theorem keyLt_asymm {a b : Key} (hab : keyLt a b) : ¬ keyLt b a :=
  fun hba => keyLt_irrefl a (keyLt_trans hab hba)

theorem keyLt_ne {a b : Key} (hab : keyLt a b) : a ≠ b := by
  rintro rfl
  exact keyLt_irrefl a hab

theorem keyLt_of_not (a b : Key) (hne : a ≠ b) (h : ¬ keyLt a b) : keyLt b a := by
  rcases keyLt_total a b with h1 | h1 | h1
  · exact absurd h1 h
  · exact absurd h1 hne
  · exact h1

theorem bytesEqual_iff (a b : Key) : bytesEqual a b = true ↔ a = b := by
  simp [bytesEqual]

/-! ## Bitmap layers: the loops as set operations -/

theorem newSroarFromList_eq (list : List Nat) : newSroarFromList list = list.toFinset := by
  unfold newSroarFromList
  suffices h : ∀ (s : Finset Nat), list.foldl (fun bm x => insert x bm) s = s ∪ list.toFinset by
    simpa using h ∅
  induction list with
  | nil => intro s; simp
  | cons x xs ih =>
    intro s
    rw [List.foldl_cons, ih]
    ext y
    simp only [Finset.mem_union, Finset.mem_insert, List.mem_toFinset, List.mem_cons]
    tauto

theorem mergeAdditions_eq (v : BitmapLayer) (xs : List Nat) :
    mergeAdditions v xs =
      { Additions := v.Additions ∪ xs.toFinset, Deletions := v.Deletions \ xs.toFinset } := by
  unfold mergeAdditions
  induction xs generalizing v with
  | nil => simp
  | cons x xs ih =>
    rw [List.foldl_cons, ih]
    congr 1
    · ext y
      simp only [Finset.mem_union, Finset.mem_insert, List.mem_toFinset, List.mem_cons]
      tauto
    · ext y
      simp only [Finset.mem_sdiff, Finset.mem_erase, List.mem_toFinset, List.mem_cons]
      tauto

theorem mergeDeletions_eq (v : BitmapLayer) (xs : List Nat) :
    mergeDeletions v xs =
      { Additions := v.Additions \ xs.toFinset, Deletions := v.Deletions ∪ xs.toFinset } := by
  unfold mergeDeletions
  induction xs generalizing v with
  | nil => simp
  | cons x xs ih =>
    rw [List.foldl_cons, ih]
    congr 1
    · ext y
      simp only [Finset.mem_sdiff, Finset.mem_erase, List.mem_toFinset, List.mem_cons]
      tauto
    · ext y
      simp only [Finset.mem_union, Finset.mem_insert, List.mem_toFinset, List.mem_cons]
      tauto

theorem mergeLayer_eq (v : BitmapLayer) (values : Insert) :
    mergeLayer v values =
      { Additions := (v.Additions ∪ values.Additions.toFinset) \ values.Deletions.toFinset
        Deletions := (v.Deletions \ values.Additions.toFinset) ∪ values.Deletions.toFinset } := by
  unfold mergeLayer
  rw [mergeAdditions_eq, mergeDeletions_eq]

theorem newLayer_eq (values : Insert) :
    newLayer values =
      { Additions := values.Additions.toFinset, Deletions := values.Deletions.toFinset } := by
  unfold newLayer
  rw [newSroarFromList_eq, newSroarFromList_eq]

theorem entries_fill (f : Frame) (s : BinarySearchNode) :
    (f.fill s).entries =
      (if f.childIsLeft then [] else f.sibling.entries ++ [(f.Key, f.Value)]) ++ s.entries ++
        (if f.childIsLeft then (f.Key, f.Value) :: f.sibling.entries else []) := by
  unfold Frame.fill
  cases f.childIsLeft <;> simp [BinarySearchNode.entries]

theorem entries_plug (up : List Frame) (s : BinarySearchNode) :
    (plug up s).entries = entriesBefore up ++ s.entries ++ entriesAfter up := by
  induction up generalizing s with
  | nil => simp [plug, entriesBefore, entriesAfter]
  | cons f up ih =>
    rw [plug, ih, entries_fill]
    simp [entriesBefore, entriesAfter, List.append_assoc]

theorem entries_blacken (n : BinarySearchNode) : n.blacken.entries = n.entries := by
  cases n <;> rfl

/-! ## The rebalancer keeps the in-order sequence -/

theorem entries_rotate (p g : Frame) (k : Key) (v : BitmapLayer) (l r : BinarySearchNode)
    (c : Bool) :
    (rotate p g k v l r c).1.entries = (g.fill (p.fill (.node k v l r c))).entries := by
  unfold rotate Frame.fill
  cases g.childIsLeft <;> cases p.childIsLeft <;>
    simp [BinarySearchNode.entries, List.append_assoc]

theorem rotate_fst_ne_nil (p g : Frame) (k : Key) (v : BitmapLayer) (l r : BinarySearchNode)
    (c : Bool) : ∃ k1 v1 l1 r1, (rotate p g k v l r c).1 = .node k1 v1 l1 r1 false := by
  unfold rotate
  cases g.childIsLeft <;> cases p.childIsLeft <;> exact ⟨_, _, _, _, rfl⟩

theorem pick_of_nil (a : BinarySearchNode) : Outcome.pick { atRoot := a, newRoot := .nil } = a :=
  rfl

theorem pick_of_rotate (a : BinarySearchNode) (p g : Frame) (k : Key) (v : BitmapLayer)
    (l r : BinarySearchNode) (c : Bool) :
    Outcome.pick { atRoot := a, newRoot := (rotate p g k v l r c).1 } =
      (rotate p g k v l r c).1 := by
  obtain ⟨k1, v1, l1, r1, h⟩ := rotate_fst_ne_nil p g k v l r c
  simp [Outcome.pick, h]

theorem entries_plug_congr (up : List Frame) (a b : BinarySearchNode)
    (h : a.entries = b.entries) : (plug up a).entries = (plug up b).entries := by
  rw [entries_plug, entries_plug, h]

theorem Rebalance_single (p : Frame) (k : Key) (v : BitmapLayer) (l r : BinarySearchNode)
    (c : Bool) (hp : p.colourIsRed = false) :
    Rebalance [p] (.node k v l r c) =
      .ok { atRoot := p.fill (.node k v l r c), newRoot := .nil } := by
  simp [Rebalance, hp]

theorem Rebalance_black (p g : Frame) (up : List Frame) (k : Key) (v : BitmapLayer)
    (l r : BinarySearchNode) (c : Bool) (hp : p.colourIsRed = false) :
    Rebalance (p :: g :: up) (.node k v l r c) =
      .ok { atRoot := plug (p :: g :: up) (.node k v l r c), newRoot := .nil } := by
  simp [Rebalance, hp]

theorem Rebalance_redUncle (p g : Frame) (up : List Frame) (k : Key) (v : BitmapLayer)
    (l r : BinarySearchNode) (c : Bool) (hp : p.colourIsRed = true)
    (hu : g.sibling.IsRed = true) :
    Rebalance (p :: g :: up) (.node k v l r c) =
      Rebalance up
        ({ g with sibling := g.sibling.blacken, colourIsRed := true }.fill
          ({ p with colourIsRed := false }.fill (.node k v l r c))) := by
  simp [Rebalance, hp, hu]

theorem Rebalance_rotateRoot (p g : Frame) (k : Key) (v : BitmapLayer)
    (l r : BinarySearchNode) (c : Bool) (hp : p.colourIsRed = true)
    (hu : g.sibling.IsRed = false) :
    Rebalance [p, g] (.node k v l r c) =
      .ok { atRoot := (rotate p g k v l r c).2, newRoot := (rotate p g k v l r c).1 } := by
  simp [Rebalance, hp, hu]

theorem Rebalance_rotateInner (p g f : Frame) (rest : List Frame) (k : Key) (v : BitmapLayer)
    (l r : BinarySearchNode) (c : Bool) (hp : p.colourIsRed = true)
    (hu : g.sibling.IsRed = false) :
    Rebalance (p :: g :: f :: rest) (.node k v l r c) =
      .ok { atRoot := plug (f :: rest) (rotate p g k v l r c).1, newRoot := .nil } := by
  simp [Rebalance, hp, hu]

theorem Rebalance_entries (up : List Frame) (n : BinarySearchNode) (out : Outcome)
    (h : Rebalance up n = .ok out) : out.pick.entries = (plug up n).entries := by
  induction up, n using Rebalance.induct generalizing out with
  | case1 up => simp [Rebalance] at h
  | case2 k v l r c =>
    simp only [Rebalance, Except.ok.injEq] at h
    subst h
    simp [Outcome.pick, plug, BinarySearchNode.entries]
  | case3 p k v l r c hp => simp [Rebalance, hp] at h
  | case4 p k v l r c hp =>
    rw [Rebalance_single _ _ _ _ _ _ (by simpa using hp), Except.ok.injEq] at h
    subst h
    simp [Outcome.pick, plug]
  | case5 p g up k v l r c hp hu ih =>
    rw [Rebalance_redUncle _ _ _ _ _ _ _ _ hp hu] at h
    rw [ih out h]
    simp only [plug]
    apply entries_plug_congr
    unfold Frame.fill
    cases g.childIsLeft <;> cases p.childIsLeft <;>
      simp [BinarySearchNode.entries, entries_blacken]
  | case6 p g k v l r c hp hu =>
    rw [Rebalance_rotateRoot _ _ _ _ _ _ _ hp (by simpa using hu), Except.ok.injEq] at h
    subst h
    rw [pick_of_rotate, entries_rotate]
    rfl
  | case7 p g k v l r c hp hu f rest =>
    rw [Rebalance_rotateInner _ _ _ _ _ _ _ _ _ hp (by simpa using hu), Except.ok.injEq] at h
    subst h
    rw [pick_of_nil]
    show (plug (f :: rest) _).entries = (plug (f :: rest) _).entries
    exact entries_plug_congr _ _ _ (entries_rotate p g k v l r c)
  | case8 p g up k v l r c hp =>
    rw [Rebalance_black _ _ _ _ _ _ _ _ (by simpa using hp), Except.ok.injEq] at h
    subst h
    rfl

/-! ## Filling the hole of well-formed ancestors -/

theorem blackHeightIs_blacken_red (n : BinarySearchNode) (h : Nat) (hr : n.IsRed = true)
    (hb : blackHeightIs n h) : blackHeightIs n.blacken (h + 1) := by
  cases n with
  | nil => simp [BinarySearchNode.IsRed] at hr
  | node k v l r c =>
    simp only [BinarySearchNode.IsRed] at hr
    subst hr
    exact hb

theorem blackHeightIs_blacken (n : BinarySearchNode) (h : Nat) (hb : blackHeightIs n h) :
    ∃ h1, blackHeightIs n.blacken h1 := by
  cases n with
  | nil => exact ⟨0, rfl⟩
  | node k v l r c =>
    cases c with
    | true => exact ⟨h + 1, hb⟩
    | false => exact ⟨h, hb⟩

theorem noRedRed_node (k : Key) (v : BitmapLayer) (l r : BinarySearchNode) (c : Bool) :
    (BinarySearchNode.node k v l r c).noRedRed = true ↔
      (c = true → l.IsRed = false ∧ r.IsRed = false) ∧ l.noRedRed = true ∧ r.noRedRed = true := by
  cases c <;> simp [BinarySearchNode.noRedRed, and_assoc]

theorem noRedRed_blacken (n : BinarySearchNode) (hn : n.noRedRed = true) :
    n.blacken.noRedRed = true := by
  cases n with
  | nil => rfl
  | node k v l r c =>
    rw [noRedRed_node] at hn
    simp only [BinarySearchNode.blacken]
    rw [noRedRed_node]
    exact ⟨fun hc => by simp at hc, hn.2⟩

theorem IsRed_blacken (n : BinarySearchNode) : n.blacken.IsRed = false := by
  cases n <;> rfl

theorem plug_ok (up : List Frame) (s : BinarySearchNode) (h : Nat) (hc : ancestorsOK up h)
    (hs : s.noRedRed = true) (hb : blackHeightIs s h) (hr : s.IsRed = true → headBlack up) :
    (plug up s).noRedRed = true ∧ ∃ h1, blackHeightIs (plug up s) h1 := by
  induction up generalizing s h with
  | nil => exact ⟨hs, h, hb⟩
  | cons f up ih =>
    obtain ⟨h1, h2, h3, h4⟩ := hc
    have hsf : f.colourIsRed = true → s.IsRed = false := by
      intro hf
      cases hsr : s.IsRed with
      | false => rfl
      | true =>
        have := hr hsr
        simp [headBlack, hf] at this
    apply ih (f.fill s) _ h4
    · unfold Frame.fill
      cases hl : f.childIsLeft <;> simp only [if_true, if_false, Bool.false_eq_true] <;>
        rw [noRedRed_node] <;> refine ⟨fun hf => ?_, ?_, ?_⟩ <;>
        first
          | exact hs
          | exact h1
          | exact ⟨hsf hf, (h3 hf).1⟩
          | exact ⟨(h3 hf).1, hsf hf⟩
    · unfold Frame.fill
      cases hl : f.childIsLeft <;> cases hf : f.colourIsRed <;>
        simp only [if_true, if_false, Bool.false_eq_true, blackHeightIs] <;>
        first
          | exact ⟨hb, h2⟩
          | exact ⟨h2, hb⟩
    · intro hfr
      have hf : f.colourIsRed = true := by
        unfold Frame.fill at hfr
        cases hl : f.childIsLeft <;> simpa [hl, BinarySearchNode.IsRed] using hfr
      exact (h3 hf).2

/-! ## The rebalancer restores the red-black conditions -/

theorem IsRed_node (k : Key) (v : BitmapLayer) (l r : BinarySearchNode) (c : Bool) :
    (BinarySearchNode.node k v l r c).IsRed = c := rfl

theorem plug_IsNil (up : List Frame) (s : BinarySearchNode) (hs : s.IsNil = false) :
    (plug up s).IsNil = false := by
  induction up generalizing s with
  | nil => exact hs
  | cons f up ih =>
    apply ih
    unfold Frame.fill
    cases f.childIsLeft <;> rfl

theorem rotate_ok (p g : Frame) (k : Key) (v : BitmapLayer) (l r : BinarySearchNode) (h : Nat)
    (hp : p.colourIsRed = true) (hu : g.sibling.IsRed = false)
    (hn : (BinarySearchNode.node k v l r true).noRedRed = true)
    (hb : blackHeightIs (.node k v l r true) h)
    (hps : p.sibling.noRedRed = true) (hpb : blackHeightIs p.sibling h)
    (hpr : p.sibling.IsRed = false)
    (hus : g.sibling.noRedRed = true) (hub : blackHeightIs g.sibling h) :
    (rotate p g k v l r true).1.noRedRed = true ∧
      blackHeightIs (rotate p g k v l r true).1 (h + 1) := by
  rw [noRedRed_node] at hn
  obtain ⟨hc, hl, hr⟩ := hn
  obtain ⟨hcl, hcr⟩ := hc rfl
  obtain ⟨hbl, hbr⟩ := hb
  unfold rotate
  cases g.childIsLeft <;> cases p.childIsLeft <;>
    simp [noRedRed_node, blackHeightIs, IsRed_node, hp, hu, hl, hr, hcl, hcr, hbl,
      hbr, hps, hpb, hpr, hus, hub]

theorem Rebalance_ok (up : List Frame) (n : BinarySearchNode) (h : Nat)
    (hc : ancestorsOK up h) (hred : n.IsRed = true) (hn : n.noRedRed = true)
    (hb : blackHeightIs n h) :
    ∃ out, Rebalance up n = .ok out ∧ out.pick.noRedRed = true ∧
      (∃ h1, blackHeightIs out.pick h1) ∧ out.pick.IsNil = false := by
  induction up, n using Rebalance.induct generalizing h with
  | case1 up => simp [BinarySearchNode.IsRed] at hred
  | case2 k v l r c =>
    simp only [BinarySearchNode.IsRed] at hred
    subst hred
    refine ⟨_, rfl, ?_, ⟨h + 1, ?_⟩, rfl⟩
    · exact noRedRed_blacken _ hn
    · exact hb
  | case3 p k v l r c hp =>
    have := (hc.2.2.1 hp).2
    simp [headBlack] at this
  | case4 p k v l r c hp =>
    have hp1 : p.colourIsRed = false := by simpa using hp
    refine ⟨_, Rebalance_single _ _ _ _ _ _ hp1, ?_, ?_, ?_⟩
    · exact (plug_ok [p] _ h hc hn hb (fun _ => hp1)).1
    · exact (plug_ok [p] _ h hc hn hb (fun _ => hp1)).2
    · rw [pick_of_nil]
      exact plug_IsNil [p] _ rfl
  | case5 p g up k v l r c hp hu ih =>
    rw [Rebalance_redUncle _ _ _ _ _ _ _ _ hp hu]
    obtain ⟨hps, hpb, hpc, hc1⟩ := hc
    obtain ⟨hpr, hg⟩ := hpc hp
    simp only [headBlack] at hg
    rw [hp, if_pos rfl] at hc1
    obtain ⟨hus, hub, -, hc2⟩ := hc1
    rw [hg] at hc2
    simp only [Bool.false_eq_true, if_false] at hc2
    apply ih (h + 1) hc2
    · unfold Frame.fill
      cases g.childIsLeft <;> rfl
    · unfold Frame.fill
      cases g.childIsLeft <;> cases p.childIsLeft <;>
        simp [noRedRed_node, IsRed_node, IsRed_blacken, noRedRed_blacken _ hus, hn, hps]
    · have hub1 := blackHeightIs_blacken_red _ _ hu hub
      unfold Frame.fill
      cases g.childIsLeft <;> cases p.childIsLeft <;>
        simp [blackHeightIs, hub1, hb, hpb]
  | case6 p g k v l r c hp hu =>
    have hu1 : g.sibling.IsRed = false := by simpa using hu
    simp only [BinarySearchNode.IsRed] at hred
    subst hred
    obtain ⟨hps, hpb, hpc, hc1⟩ := hc
    obtain ⟨hpr, hg⟩ := hpc hp
    rw [hp, if_pos rfl] at hc1
    obtain ⟨hus, hub, -, -⟩ := hc1
    have hrot := rotate_ok p g k v l r h hp hu1 hn hb hps hpb hpr hus hub
    refine ⟨_, Rebalance_rotateRoot _ _ _ _ _ _ _ hp hu1, ?_, ⟨h + 1, ?_⟩, ?_⟩
    · rw [pick_of_rotate]; exact hrot.1
    · rw [pick_of_rotate]; exact hrot.2
    · rw [pick_of_rotate]
      obtain ⟨k1, v1, l1, r1, he⟩ := rotate_fst_ne_nil p g k v l r true
      rw [he]; rfl
  | case7 p g k v l r c hp hu f rest =>
    have hu1 : g.sibling.IsRed = false := by simpa using hu
    simp only [BinarySearchNode.IsRed] at hred
    subst hred
    obtain ⟨hps, hpb, hpc, hc1⟩ := hc
    obtain ⟨hpr, hg⟩ := hpc hp
    simp only [headBlack] at hg
    rw [hp, if_pos rfl] at hc1
    obtain ⟨hus, hub, -, hc2⟩ := hc1
    rw [hg] at hc2
    simp only [Bool.false_eq_true, if_false] at hc2
    have hrot := rotate_ok p g k v l r h hp hu1 hn hb hps hpb hpr hus hub
    obtain ⟨k1, v1, l1, r1, he⟩ := rotate_fst_ne_nil p g k v l r true
    have hblack : (rotate p g k v l r true).1.IsRed = true → headBlack (f :: rest) := by
      rw [he]; intro hx; simp [BinarySearchNode.IsRed] at hx
    have hplug := plug_ok (f :: rest) _ (h + 1) hc2 hrot.1 hrot.2 hblack
    refine ⟨_, Rebalance_rotateInner _ _ _ _ _ _ _ _ _ hp hu1, ?_, ?_, ?_⟩
    · rw [pick_of_nil]; exact hplug.1
    · rw [pick_of_nil]; exact hplug.2
    · rw [pick_of_nil]
      apply plug_IsNil
      rw [he]; rfl
  | case8 p g up k v l r c hp =>
    have hp1 : p.colourIsRed = false := by simpa using hp
    have hplug := plug_ok (p :: g :: up) _ h hc hn hb (fun _ => hp1)
    refine ⟨_, Rebalance_black _ _ _ _ _ _ _ _ hp1, ?_, ?_, ?_⟩
    · rw [pick_of_nil]; exact hplug.1
    · rw [pick_of_nil]; exact hplug.2
    · rw [pick_of_nil]
      exact plug_IsNil _ _ rfl

/-! ## Upsert around an entry of a sorted list -/

theorem upsert_append_of_lt (key : Key) (values : Insert) (l1 l2 : List (Key × BitmapLayer))
    (k : Key) (v : BitmapLayer) (hk : keyLt key k) :
    upsert key values (l1 ++ (k, v) :: l2) = upsert key values l1 ++ (k, v) :: l2 := by
  induction l1 with
  | nil => simp [upsert, keyLt_ne hk, hk]
  | cons a l1 ih =>
    obtain ⟨ak, av⟩ := a
    simp only [List.cons_append, upsert]
    split_ifs <;> simp [ih]

theorem upsert_append_of_gt (key : Key) (values : Insert) (l1 l2 : List (Key × BitmapLayer))
    (hk : ∀ a ∈ l1, keyLt a.1 key) :
    upsert key values (l1 ++ l2) = l1 ++ upsert key values l2 := by
  induction l1 with
  | nil => rfl
  | cons a l1 ih =>
    obtain ⟨ak, av⟩ := a
    have hak : keyLt ak key := hk (ak, av) (List.mem_cons_self _ _)
    have h1 : key ≠ ak := fun e => keyLt_ne hak e.symm
    have h2 : ¬ keyLt key ak := keyLt_asymm hak
    have ih1 := ih (fun a ha => hk a (List.mem_cons_of_mem _ ha))
    rw [List.cons_append, upsert]
    simp only [h1, h2, if_false, ih1, List.cons_append]

theorem sortedEntries_node {le re : List (Key × BitmapLayer)} {k : Key} {v : BitmapLayer}
    (h : sortedEntries (le ++ (k, v) :: re)) :
    sortedEntries le ∧ sortedEntries re ∧ (∀ a ∈ le, keyLt a.1 k) ∧ (∀ b ∈ re, keyLt k b.1) := by
  unfold sortedEntries at *
  rw [List.pairwise_append, List.pairwise_cons] at h
  obtain ⟨h1, ⟨h2, h3⟩, h4⟩ := h
  exact ⟨h1, h3, fun a ha => h4 a ha (k, v) (List.mem_cons_self _ _), h2⟩

/-! ## `insert` on a search tree is `upsert` on its entries -/

theorem insert_match (rb : Rebalancer) (up : List Frame) (k : Key) (v : BitmapLayer)
    (l r : BinarySearchNode) (c : Bool) (values : Insert) :
    BinarySearchNode.insert rb up (.node k v l r c) k values =
      .ok { atRoot := plug up (.node k (mergeLayer v values) l r c), newRoot := .nil } := by
  simp [BinarySearchNode.insert, bytesEqual]

theorem insert_left_node (rb : Rebalancer) (up : List Frame) (k : Key) (v : BitmapLayer)
    (lk : Key) (lv : BitmapLayer) (ll lr : BinarySearchNode) (lc : Bool)
    (r : BinarySearchNode) (c : Bool) (key : Key) (values : Insert) (hlt : keyLt key k) :
    BinarySearchNode.insert rb up (.node k v (.node lk lv ll lr lc) r c) key values =
      BinarySearchNode.insert rb
        ({ childIsLeft := true, Key := k, Value := v, sibling := r, colourIsRed := c } :: up)
        (.node lk lv ll lr lc) key values := by
  have hne : key ≠ k := keyLt_ne hlt
  unfold keyLt at hlt
  simp [BinarySearchNode.insert, bytesEqual, hne, hlt]

theorem insert_left_nil (rb : Rebalancer) (up : List Frame) (k : Key) (v : BitmapLayer)
    (r : BinarySearchNode) (c : Bool) (key : Key) (values : Insert) (hlt : keyLt key k) :
    BinarySearchNode.insert rb up (.node k v .nil r c) key values =
      rb ({ childIsLeft := true, Key := k, Value := v, sibling := r, colourIsRed := c } :: up)
        (.node key (newLayer values) .nil .nil true) := by
  have hne : key ≠ k := keyLt_ne hlt
  unfold keyLt at hlt
  simp [BinarySearchNode.insert, bytesEqual, hne, hlt]

theorem insert_right_node (rb : Rebalancer) (up : List Frame) (k : Key) (v : BitmapLayer)
    (l : BinarySearchNode) (rk : Key) (rv : BitmapLayer) (rl rr : BinarySearchNode) (rc : Bool)
    (c : Bool) (key : Key) (values : Insert) (hne : key ≠ k) (hlt : ¬ keyLt key k) :
    BinarySearchNode.insert rb up (.node k v l (.node rk rv rl rr rc) c) key values =
      BinarySearchNode.insert rb
        ({ childIsLeft := false, Key := k, Value := v, sibling := l, colourIsRed := c } :: up)
        (.node rk rv rl rr rc) key values := by
  unfold keyLt at hlt
  simp [BinarySearchNode.insert, bytesEqual, hne, hlt]

theorem insert_right_nil (rb : Rebalancer) (up : List Frame) (k : Key) (v : BitmapLayer)
    (l : BinarySearchNode) (c : Bool) (key : Key) (values : Insert) (hne : key ≠ k)
    (hlt : ¬ keyLt key k) :
    BinarySearchNode.insert rb up (.node k v l .nil c) key values =
      rb ({ childIsLeft := false, Key := k, Value := v, sibling := l, colourIsRed := c } :: up)
        (.node key (newLayer values) .nil .nil true) := by
  unfold keyLt at hlt
  simp [BinarySearchNode.insert, bytesEqual, hne, hlt]

theorem insert_entries (up : List Frame) (n : BinarySearchNode) (key : Key) (values : Insert)
    (out : Outcome) (hs : sortedEntries n.entries)
    (h : BinarySearchNode.insert Rebalance up n key values = .ok out) :
    out.pick.entries = entriesBefore up ++ upsert key values n.entries ++ entriesAfter up := by
  induction n generalizing up with
  | nil => simp [BinarySearchNode.insert] at h
  | node k v l r c ihl ihr =>
    simp only [BinarySearchNode.entries] at hs ⊢
    obtain ⟨hsl, hsr, hlk, hkr⟩ := sortedEntries_node hs
    by_cases heq : key = k
    · subst heq
      rw [insert_match, Except.ok.injEq] at h
      subst h
      rw [pick_of_nil, entries_plug, upsert_append_of_gt _ _ _ _ hlk]
      simp [upsert, BinarySearchNode.entries]
    · by_cases hlt : keyLt key k
      · rw [upsert_append_of_lt _ _ _ _ _ _ hlt]
        cases l with
        | nil =>
          rw [insert_left_nil _ _ _ _ _ _ _ _ hlt] at h
          rw [Rebalance_entries _ _ _ h, entries_plug]
          simp [entriesBefore, entriesAfter, BinarySearchNode.entries, upsert]
        | node lk lv ll lr lc =>
          rw [insert_left_node _ _ _ _ _ _ _ _ _ _ _ _ _ hlt] at h
          rw [ihl _ hsl h]
          simp [entriesBefore, entriesAfter, List.append_assoc]
      · have hgt : keyLt k key := keyLt_of_not key k heq hlt
        have hall : ∀ a ∈ l.entries ++ [(k, v)], keyLt a.1 key := by
          intro a ha
          rw [List.mem_append, List.mem_singleton] at ha
          rcases ha with ha | ha
          · exact keyLt_trans (hlk a ha) hgt
          · rw [ha]; exact hgt
        have hup : upsert key values (l.entries ++ (k, v) :: r.entries) =
            l.entries ++ (k, v) :: upsert key values r.entries := by
          have := upsert_append_of_gt key values (l.entries ++ [(k, v)]) r.entries hall
          simpa [List.append_assoc] using this
        rw [hup]
        cases r with
        | nil =>
          rw [insert_right_nil _ _ _ _ _ _ _ _ heq hlt] at h
          rw [Rebalance_entries _ _ _ h, entries_plug]
          simp [entriesBefore, entriesAfter, BinarySearchNode.entries, upsert]
        | node rk rv rl rr rc =>
          rw [insert_right_node _ _ _ _ _ _ _ _ _ _ _ _ _ heq hlt] at h
          rw [ihr _ hsr h]
          simp [entriesBefore, entriesAfter, List.append_assoc]

/-! ## `insert` keeps the red-black conditions -/

theorem blackHeightIs_node_iff (k : Key) (v : BitmapLayer) (l r : BinarySearchNode) (c : Bool)
    (h : Nat) :
    blackHeightIs (.node k v l r c) h ↔
      ∃ h1, h = (if c then h1 else h1 + 1) ∧ blackHeightIs l h1 ∧ blackHeightIs r h1 := by
  cases c with
  | true => simp [blackHeightIs]
  | false =>
    cases h with
    | zero => simp [blackHeightIs]
    | succ h => simp [blackHeightIs]

theorem insert_ok (up : List Frame) (n : BinarySearchNode) (key : Key) (values : Insert)
    (h : Nat) (hc : ancestorsOK up h) (hn : n.noRedRed = true) (hb : blackHeightIs n h)
    (hr : n.IsRed = true → headBlack up) (hnil : n.IsNil = false) :
    ∃ out, BinarySearchNode.insert Rebalance up n key values = .ok out ∧
      out.pick.noRedRed = true ∧ (∃ h1, blackHeightIs out.pick h1) ∧ out.pick.IsNil = false := by
  induction n generalizing up h with
  | nil => simp [BinarySearchNode.IsNil] at hnil
  | node k v l r c ihl ihr =>
    have hn1 := hn
    rw [noRedRed_node] at hn1
    obtain ⟨hcol, hnl, hnr⟩ := hn1
    have hb1 := hb
    rw [blackHeightIs_node_iff] at hb1
    obtain ⟨h1, hh, hbl, hbr⟩ := hb1
    rw [IsRed_node] at hr
    have hleft : ancestorsOK
        ({ childIsLeft := true, Key := k, Value := v, sibling := r, colourIsRed := c } :: up)
        h1 := by
      refine ⟨hnr, hbr, fun hcr => ⟨(hcol hcr).2, hr hcr⟩, ?_⟩
      rw [← hh]; exact hc
    have hright : ancestorsOK
        ({ childIsLeft := false, Key := k, Value := v, sibling := l, colourIsRed := c } :: up)
        h1 := by
      refine ⟨hnl, hbl, fun hcr => ⟨(hcol hcr).1, hr hcr⟩, ?_⟩
      rw [← hh]; exact hc
    have hchild : ∀ (ch : BinarySearchNode) (f : Frame) , f.colourIsRed = c →
        (c = true → ch.IsRed = false) → ch.IsRed = true → headBlack (f :: up) := by
      intro ch f hf hch hred
      simp only [headBlack]
      cases hcc : c with
      | false => rw [hf, hcc]
      | true => rw [hch hcc] at hred; simp at hred
    by_cases heq : key = k
    · subst heq
      rw [insert_match]
      have hn2 : (BinarySearchNode.node key (mergeLayer v values) l r c).noRedRed = true := by
        rw [noRedRed_node]; exact ⟨hcol, hnl, hnr⟩
      have hb2 : blackHeightIs (.node key (mergeLayer v values) l r c) h := by
        rw [blackHeightIs_node_iff]; exact ⟨h1, hh, hbl, hbr⟩
      have hplug := plug_ok up _ h hc hn2 hb2 hr
      exact ⟨_, rfl, hplug.1, hplug.2, plug_IsNil _ _ rfl⟩
    · by_cases hlt : keyLt key k
      · cases l with
        | nil =>
          rw [insert_left_nil _ _ _ _ _ _ _ _ hlt]
          have h0 : h1 = 0 := hbl
          subst h0
          exact Rebalance_ok _ _ 0 hleft rfl rfl ⟨rfl, rfl⟩
        | node lk lv ll lr lc =>
          rw [insert_left_node _ _ _ _ _ _ _ _ _ _ _ _ _ hlt]
          exact ihl _ h1 hleft hnl hbl (hchild _ _ rfl (fun hcr => (hcol hcr).1)) rfl
      · cases r with
        | nil =>
          rw [insert_right_nil _ _ _ _ _ _ _ _ heq hlt]
          have h0 : h1 = 0 := hbr
          subst h0
          exact Rebalance_ok _ _ 0 hright rfl rfl ⟨rfl, rfl⟩
        | node rk rv rl rr rc =>
          rw [insert_right_node _ _ _ _ _ _ _ _ _ _ _ _ _ heq hlt]
          exact ihr _ h1 hright hnr hbr (hchild _ _ rfl (fun hcr => (hcol hcr).2)) rfl

/-! ## `Insert` keeps the invariants and is `upsert` on the entries -/

theorem Insert_eq (rb : Rebalancer) (t : BinarySearchTree) (key : Key) (values : Insert)
    (out : Outcome) (hnil : t.root.IsNil = false)
    (h : BinarySearchNode.insert rb [] t.root key values = .ok out)
    (hpick : out.pick.IsNil = false) :
    t.Insert rb key values = .ok { root := out.pick.blacken } := by
  unfold BinarySearchTree.Insert
  cases hroot : t.root with
  | nil => rw [hroot] at hnil; simp [BinarySearchNode.IsNil] at hnil
  | node k v l r c =>
    rw [hroot] at h
    simp only [h]
    unfold Outcome.pick at hpick ⊢
    cases hnr : out.newRoot with
    | nil =>
      rw [hnr] at hpick
      simp only at hpick ⊢
      cases har : out.atRoot with
      | nil => rw [har] at hpick; simp [BinarySearchNode.IsNil] at hpick
      | node k2 v2 l2 r2 c2 => rfl
    | node k2 v2 l2 r2 c2 => rfl

theorem upsert_sorted (key : Key) (values : Insert) (es : List (Key × BitmapLayer))
    (hs : sortedEntries es) : sortedEntries (upsert key values es) := by
  unfold sortedEntries at *
  induction es with
  | nil => simp [upsert]
  | cons a es ih =>
    obtain ⟨k, v⟩ := a
    rw [List.pairwise_cons] at hs
    obtain ⟨h1, h2⟩ := hs
    rw [upsert]
    split_ifs with heq hlt
    · rw [List.pairwise_cons]; exact ⟨h1, h2⟩
    · rw [List.pairwise_cons, List.pairwise_cons]
      refine ⟨?_, h1, h2⟩
      intro b hb
      rw [List.mem_cons] at hb
      rcases hb with hb | hb
      · rw [hb]; exact hlt
      · exact keyLt_trans hlt (h1 b hb)
    · rw [List.pairwise_cons]
      refine ⟨?_, ih h2⟩
      have hgt : keyLt k key := keyLt_of_not key k heq hlt
      have hmem : ∀ b ∈ upsert key values es, b.1 = key ∨ b ∈ es := by
        intro b hb
        clear ih h1 h2
        induction es with
        | nil =>
          simp only [upsert, List.mem_singleton] at hb
          left; rw [hb]
        | cons a es ih2 =>
          obtain ⟨k2, v2⟩ := a
          rw [upsert] at hb
          split_ifs at hb with h3 h4
          · rw [List.mem_cons] at hb
            rcases hb with hb | hb
            · left; rw [hb]; exact h3.symm
            · right; exact List.mem_cons_of_mem _ hb
          · rw [List.mem_cons] at hb
            rcases hb with hb | hb
            · left; rw [hb]
            · right; exact hb
          · rw [List.mem_cons] at hb
            rcases hb with hb | hb
            · right; rw [hb]; exact List.mem_cons_self _ _
            · rcases ih2 hb with h5 | h5
              · left; exact h5
              · right; exact List.mem_cons_of_mem _ h5
      intro b hb
      rcases hmem b hb with h5 | h5
      · rw [h5]; exact hgt
      · exact h1 b h5

theorem Insert_spec (t : BinarySearchTree) (key : Key) (values : Insert) (hw : WellFormed t) :
    ∃ t1, t.Insert Rebalance key values = .ok t1 ∧ WellFormed t1 ∧
      t1.root.entries = upsert key values t.root.entries ∧ t1.root.IsNil = false := by
  cases hroot : t.root with
  | nil =>
    refine ⟨{ root := .node key (newLayer values) .nil .nil false }, ?_, ?_, ?_, rfl⟩
    · unfold BinarySearchTree.Insert; rw [hroot]
    · exact ⟨by simp [sortedEntries, BinarySearchNode.entries], rfl, rfl, 1, rfl, rfl⟩
    · simp [BinarySearchNode.entries, upsert]
  | node k v l r c =>
    have hnil : t.root.IsNil = false := by rw [hroot]; rfl
    obtain ⟨h, hb⟩ := hw.balanced
    have hr : t.root.IsRed = true → headBlack [] := by
      intro hx; rw [hw.rootBlack] at hx; simp at hx
    obtain ⟨out, ho, h1, ⟨h2, hb2⟩, h3⟩ :=
      insert_ok [] t.root key values h trivial hw.noRedRed hb hr hnil
    refine ⟨{ root := out.pick.blacken }, Insert_eq _ _ _ _ _ hnil ho h3, ?_, ?_, ?_⟩
    · refine ⟨?_, IsRed_blacken _, noRedRed_blacken _ h1, blackHeightIs_blacken _ _ hb2⟩
      show sortedEntries out.pick.blacken.entries
      rw [entries_blacken, insert_entries [] _ _ _ _ hw.sorted ho]
      simpa [entriesBefore, entriesAfter] using upsert_sorted key values _ hw.sorted
    · show out.pick.blacken.entries = _
      rw [entries_blacken, insert_entries [] _ _ _ _ hw.sorted ho, hroot]
      simp [entriesBefore, entriesAfter]
    · show out.pick.blacken.IsNil = false
      cases hp : out.pick with
      | nil => rw [hp] at h3; simp [BinarySearchNode.IsNil] at h3
      | node _ _ _ _ _ => rfl

theorem foldlM_Insert_spec (ops : List (Key × Insert)) (t : BinarySearchTree)
    (hw : WellFormed t) :
    ∃ t1, ops.foldlM (fun t op => t.Insert Rebalance op.1 op.2) t = .ok t1 ∧ WellFormed t1 ∧
      t1.root.entries = upsertAll ops t.root.entries := by
  induction ops generalizing t with
  | nil => exact ⟨t, rfl, hw, rfl⟩
  | cons op ops ih =>
    obtain ⟨t1, h1, hw1, he1, -⟩ := Insert_spec t op.1 op.2 hw
    obtain ⟨t2, h2, hw2, he2⟩ := ih t1 hw1
    refine ⟨t2, ?_, hw2, ?_⟩
    · rw [List.foldlM_cons, h1]
      exact h2
    · rw [he2, he1]; rfl

theorem wellFormed_empty : WellFormed { root := .nil } :=
  ⟨by simp [sortedEntries, BinarySearchNode.entries], rfl, rfl, 0, rfl⟩

theorem insertAll_spec (ops : List (Key × Insert)) :
    ∃ t, insertAll Rebalance ops = .ok t ∧ WellFormed t ∧
      t.root.entries = upsertAll ops [] :=
  foldlM_Insert_spec ops _ wellFormed_empty

/-! ## `Get` on a search tree is `lookup` on its entries -/

theorem lookup_none_of_ne (key : Key) (es : List (Key × BitmapLayer))
    (h : ∀ a ∈ es, a.1 ≠ key) : lookup key es = none := by
  induction es with
  | nil => rfl
  | cons a es ih =>
    obtain ⟨k, v⟩ := a
    have h1 : key ≠ k := fun e => h (k, v) (List.mem_cons_self _ _) e.symm
    rw [lookup, if_neg h1]
    exact ih (fun a ha => h a (List.mem_cons_of_mem _ ha))

theorem lookup_append (key : Key) (l1 l2 : List (Key × BitmapLayer)) :
    lookup key (l1 ++ l2) =
      match lookup key l1 with
      | some v => some v
      | none => lookup key l2 := by
  induction l1 with
  | nil => rfl
  | cons a l1 ih =>
    obtain ⟨k, v⟩ := a
    rw [List.cons_append, lookup, lookup]
    split_ifs
    · rfl
    · exact ih

theorem lookup_append_of_ne (key : Key) (l1 l2 : List (Key × BitmapLayer))
    (h : ∀ a ∈ l1, a.1 ≠ key) : lookup key (l1 ++ l2) = lookup key l2 := by
  rw [lookup_append, lookup_none_of_ne key l1 h]

theorem get_node_nil_left (k : Key) (v : BitmapLayer) (r : BinarySearchNode) (c : Bool)
    (key : Key) (hlt : keyLt key k) :
    BinarySearchNode.get (.node k v .nil r c) key = .error .NotFound := by
  have hne : ¬ k = key := fun e => keyLt_ne hlt e.symm
  unfold keyLt at hlt
  simp [BinarySearchNode.get, bytesEqual, hne, hlt]

theorem get_node_left (k : Key) (v : BitmapLayer) (lk : Key) (lv : BitmapLayer)
    (ll lr : BinarySearchNode) (lc : Bool) (r : BinarySearchNode) (c : Bool)
    (key : Key) (hlt : keyLt key k) :
    BinarySearchNode.get (.node k v (.node lk lv ll lr lc) r c) key =
      BinarySearchNode.get (.node lk lv ll lr lc) key := by
  have hne : ¬ k = key := fun e => keyLt_ne hlt e.symm
  unfold keyLt at hlt
  simp [BinarySearchNode.get, bytesEqual, hne, hlt]

theorem get_node_nil_right (k : Key) (v : BitmapLayer) (l : BinarySearchNode) (c : Bool)
    (key : Key) (hne : key ≠ k) (hlt : ¬ keyLt key k) :
    BinarySearchNode.get (.node k v l .nil c) key = .error .NotFound := by
  have hne1 : ¬ k = key := fun e => hne e.symm
  unfold keyLt at hlt
  simp [BinarySearchNode.get, bytesEqual, hne1, hlt]

theorem get_node_right (k : Key) (v : BitmapLayer) (l : BinarySearchNode) (rk : Key)
    (rv : BitmapLayer) (rl rr : BinarySearchNode) (rc : Bool) (c : Bool)
    (key : Key) (hne : key ≠ k) (hlt : ¬ keyLt key k) :
    BinarySearchNode.get (.node k v l (.node rk rv rl rr rc) c) key =
      BinarySearchNode.get (.node rk rv rl rr rc) key := by
  have hne1 : ¬ k = key := fun e => hne e.symm
  unfold keyLt at hlt
  simp [BinarySearchNode.get, bytesEqual, hne1, hlt]

theorem get_node_match (k : Key) (v : BitmapLayer) (l r : BinarySearchNode) (c : Bool) :
    BinarySearchNode.get (.node k v l r c) k = .ok v := by
  simp [BinarySearchNode.get, bytesEqual]

theorem get_eq_lookup (n : BinarySearchNode) (key : Key) (hs : sortedEntries n.entries)
    (hnil : n.IsNil = false) : n.get key = getResult (lookup key n.entries) := by
  induction n with
  | nil => simp [BinarySearchNode.IsNil] at hnil
  | node k v l r c ihl ihr =>
    simp only [BinarySearchNode.entries] at hs ⊢
    obtain ⟨hsl, hsr, hlk, hkr⟩ := sortedEntries_node hs
    by_cases heq : key = k
    · subst heq
      rw [get_node_match, lookup_append_of_ne _ _ _ (fun a ha => keyLt_ne (hlk a ha))]
      simp [lookup, getResult]
    · by_cases hlt : keyLt key k
      · have hright : lookup key ((k, v) :: r.entries) = none := by
          apply lookup_none_of_ne
          intro a ha
          rw [List.mem_cons] at ha
          rcases ha with ha | ha
          · rw [ha]; exact fun e => heq e.symm
          · exact fun e => keyLt_ne (keyLt_trans hlt (hkr a ha)) e.symm
        rw [lookup_append, hright]
        cases l with
        | nil =>
          rw [get_node_nil_left _ _ _ _ _ hlt]
          rfl
        | node lk lv ll lr lc =>
          rw [get_node_left _ _ _ _ _ _ _ _ _ _ hlt, ihl hsl rfl]
          cases lookup key (BinarySearchNode.node lk lv ll lr lc).entries <;> rfl
      · have hgt : keyLt k key := keyLt_of_not key k heq hlt
        rw [lookup_append_of_ne _ _ _
          (fun a ha => keyLt_ne (keyLt_trans (hlk a ha) hgt)), lookup, if_neg heq]
        cases r with
        | nil =>
          rw [get_node_nil_right _ _ _ _ _ heq hlt]
          rfl
        | node rk rv rl rr rc =>
          rw [get_node_right _ _ _ _ _ _ _ _ _ _ heq hlt, ihr hsr rfl]

theorem Get_eq_lookup (t : BinarySearchTree) (key : Key) (hs : sortedEntries t.root.entries) :
    t.Get key = getResult (lookup key t.root.entries) := by
  unfold BinarySearchTree.Get
  cases hroot : t.root with
  | nil => rfl
  | node k v l r c =>
    rw [hroot] at hs
    exact get_eq_lookup _ key hs rfl

/-! ## Lookup after upsert -/

theorem lookup_upsert_ne (key : Key) (values : Insert) (k1 : Key)
    (es : List (Key × BitmapLayer)) (hne : k1 ≠ key) :
    lookup k1 (upsert key values es) = lookup k1 es := by
  induction es with
  | nil => simp [upsert, lookup, hne]
  | cons a es ih =>
    obtain ⟨k, v⟩ := a
    rw [upsert]
    split_ifs with h1 h2
    · subst h1
      simp [lookup, hne]
    · simp [lookup, hne]
    · simp [lookup, ih]

theorem lookup_upsert_self (key : Key) (values : Insert) (es : List (Key × BitmapLayer))
    (hs : sortedEntries es) :
    lookup key (upsert key values es) =
      some (match lookup key es with
        | some v => mergeLayer v values
        | none => newLayer values) := by
  induction es with
  | nil => simp [upsert, lookup]
  | cons a es ih =>
    obtain ⟨k, v⟩ := a
    unfold sortedEntries at hs
    rw [List.pairwise_cons] at hs
    rw [upsert]
    split_ifs with h1 h2
    · subst h1
      simp [lookup]
    · have hnone : lookup key es = none :=
        lookup_none_of_ne _ _ (fun a ha e => keyLt_ne (keyLt_trans h2 (hs.1 a ha)) e.symm)
      simp [lookup, h1, hnone]
    · simp only [lookup, h1, if_false]
      exact ih hs.2

theorem lookup_isSome_iff (key : Key) (es : List (Key × BitmapLayer)) :
    (∃ v, lookup key es = some v) ↔ key ∈ es.map Prod.fst := by
  induction es with
  | nil => simp [lookup]
  | cons a es ih =>
    obtain ⟨k, v⟩ := a
    rw [lookup]
    by_cases h : key = k
    · simp [h]
    · simp [h, ih]

theorem mem_keys_upsert (key : Key) (values : Insert) (k1 : Key)
    (es : List (Key × BitmapLayer)) :
    k1 ∈ (upsert key values es).map Prod.fst ↔ k1 = key ∨ k1 ∈ es.map Prod.fst := by
  rw [← lookup_isSome_iff, ← lookup_isSome_iff]
  by_cases h : k1 = key
  · subst h
    simp only [true_or, iff_true]
    induction es with
    | nil => exact ⟨newLayer values, by simp [upsert, lookup]⟩
    | cons a es ih =>
      obtain ⟨k, v⟩ := a
      rw [upsert]
      split_ifs with h1 h2
      · exact ⟨_, by rw [lookup, if_pos h1]⟩
      · exact ⟨_, by rw [lookup, if_pos rfl]⟩
      · rw [lookup, if_neg h1]; exact ih
  · rw [lookup_upsert_ne _ _ _ _ h]
    simp [h]

theorem mem_keys_upsertAll (ops : List (Key × Insert)) (k1 : Key)
    (es : List (Key × BitmapLayer)) :
    k1 ∈ (upsertAll ops es).map Prod.fst ↔ k1 ∈ ops.map Prod.fst ∨ k1 ∈ es.map Prod.fst := by
  induction ops generalizing es with
  | nil => simp [upsertAll]
  | cons op ops ih =>
    have : upsertAll (op :: ops) es = upsertAll ops (upsert op.1 op.2 es) := rfl
    rw [this, ih, mem_keys_upsert]
    simp only [List.map_cons, List.mem_cons]
    tauto

/-! ## Flattening returns the nodes in order -/

theorem flattenInOrder_eq (n : BinarySearchNode) (hnil : n.IsNil = false) :
    n.flattenInOrder = .ok n.nodes := by
  induction n with
  | nil => simp [BinarySearchNode.IsNil] at hnil
  | node k v l r c ihl ihr =>
    cases l with
    | nil =>
      cases r with
      | nil => rfl
      | node rk rv rl rr rc =>
        unfold BinarySearchNode.flattenInOrder
        simp only [ihr rfl]
        rfl
    | node lk lv ll lr lc =>
      cases r with
      | nil =>
        unfold BinarySearchNode.flattenInOrder
        simp only [ihl rfl]
        rfl
      | node rk rv rl rr rc =>
        unfold BinarySearchNode.flattenInOrder
        simp only [ihl rfl, ihr rfl]
        rfl

theorem FlattenInOrder_eq (t : BinarySearchTree) : t.FlattenInOrder = .ok t.root.nodes := by
  unfold BinarySearchTree.FlattenInOrder
  cases hroot : t.root with
  | nil => rfl
  | node k v l r c => exact flattenInOrder_eq _ rfl

theorem nodes_entries (n : BinarySearchNode) :
    n.nodes.map (fun x => (x.key, x.value)) = n.entries := by
  induction n with
  | nil => rfl
  | node k v l r c ihl ihr =>
    rw [BinarySearchNode.nodes, BinarySearchNode.entries, List.map_append, List.map_cons, ihl,
      ihr]
    rfl

theorem nodes_keys (n : BinarySearchNode) :
    n.nodes.map BinarySearchNode.key = n.entries.map Prod.fst := by
  rw [← nodes_entries, List.map_map]
  rfl

/-! ## Black height as a count along paths -/

theorem pathBlackCounts_of_blackHeightIs (n : BinarySearchNode) (h : Nat)
    (hb : blackHeightIs n h) : ∀ x ∈ n.pathBlackCounts, x = h := by
  induction n generalizing h with
  | nil =>
    intro x hx
    simp only [BinarySearchNode.pathBlackCounts, List.mem_singleton] at hx
    rw [hx]; exact hb.symm
  | node k v l r c ihl ihr =>
    rw [blackHeightIs_node_iff] at hb
    obtain ⟨h1, hh, hbl, hbr⟩ := hb
    intro x hx
    simp only [BinarySearchNode.pathBlackCounts, List.mem_map, List.mem_append] at hx
    obtain ⟨y, hy, hxy⟩ := hx
    have hy1 : y = h1 := by
      rcases hy with hy | hy
      · exact ihl h1 hbl y hy
      · exact ihr h1 hbr y hy
    rw [← hxy, hy1, hh]

theorem isRedBlack_of_wellFormed (t : BinarySearchTree) (hw : WellFormed t) : t.isRedBlack := by
  obtain ⟨h, hb⟩ := hw.balanced
  refine ⟨hw.rootBlack, hw.noRedRed, ?_⟩
  intro x hx y hy
  rw [pathBlackCounts_of_blackHeightIs _ h hb x hx, pathBlackCounts_of_blackHeightIs _ h hb y hy]

/-! ## `Insert` of a present key merges in place -/

theorem Get_node (k : Key) (v : BitmapLayer) (l r : BinarySearchNode) (c : Bool) (key : Key) :
    BinarySearchTree.Get { root := .node k v l r c } key =
      if key = k then .ok v
      else if keyLt key k then BinarySearchTree.Get { root := l } key
      else BinarySearchTree.Get { root := r } key := by
  unfold BinarySearchTree.Get
  simp only
  by_cases heq : key = k
  · subst heq
    rw [get_node_match, if_pos rfl]
  · rw [if_neg heq]
    by_cases hlt : keyLt key k
    · rw [if_pos hlt]
      cases l with
      | nil => exact get_node_nil_left _ _ _ _ _ hlt
      | node lk lv ll lr lc => exact get_node_left _ _ _ _ _ _ _ _ _ _ hlt
    · rw [if_neg hlt]
      cases r with
      | nil => exact get_node_nil_right _ _ _ _ _ heq hlt
      | node rk rv rl rr rc => exact get_node_right _ _ _ _ _ _ _ _ _ _ heq hlt

theorem Get_nil (key : Key) : BinarySearchTree.Get { root := .nil } key = .error .NotFound :=
  rfl

theorem mergeAt_IsNil (n : BinarySearchNode) (key : Key) (values : Insert) :
    (n.mergeAt key values).IsNil = n.IsNil := by
  cases n with
  | nil => rfl
  | node k v l r c =>
    rw [BinarySearchNode.mergeAt]
    split_ifs <;> rfl

theorem insert_existing (rb : Rebalancer) (up : List Frame) (n : BinarySearchNode) (key : Key)
    (values : Insert) (layer : BitmapLayer)
    (hg : BinarySearchTree.Get { root := n } key = .ok layer) :
    BinarySearchNode.insert rb up n key values =
      .ok { atRoot := plug up (n.mergeAt key values), newRoot := .nil } := by
  induction n generalizing up with
  | nil => simp [Get_nil] at hg
  | node k v l r c ihl ihr =>
    rw [Get_node] at hg
    rw [BinarySearchNode.mergeAt]
    by_cases heq : key = k
    · subst heq
      rw [insert_match, if_pos rfl]
    · rw [if_neg heq] at hg ⊢
      by_cases hlt : keyLt key k
      · rw [if_pos hlt] at hg ⊢
        cases l with
        | nil => simp [Get_nil] at hg
        | node lk lv ll lr lc =>
          rw [insert_left_node _ _ _ _ _ _ _ _ _ _ _ _ _ hlt, ihl _ hg]
          rfl
      · rw [if_neg hlt] at hg ⊢
        cases r with
        | nil => simp [Get_nil] at hg
        | node rk rv rl rr rc =>
          rw [insert_right_node _ _ _ _ _ _ _ _ _ _ _ _ _ heq hlt, ihr _ hg]
          rfl

theorem Get_mergeAt_self (n : BinarySearchNode) (key : Key) (values : Insert)
    (layer : BitmapLayer) (hg : BinarySearchTree.Get { root := n } key = .ok layer) :
    BinarySearchTree.Get { root := n.mergeAt key values } key =
      .ok (mergeLayer layer values) := by
  induction n with
  | nil => simp [Get_nil] at hg
  | node k v l r c ihl ihr =>
    rw [Get_node] at hg
    rw [BinarySearchNode.mergeAt]
    by_cases heq : key = k
    · rw [if_pos heq] at hg ⊢
      rw [Get_node, if_pos heq]
      simp only [Except.ok.injEq] at hg
      rw [hg]
    · rw [if_neg heq] at hg ⊢
      by_cases hlt : keyLt key k
      · rw [if_pos hlt] at hg ⊢
        rw [Get_node, if_neg heq, if_pos hlt]
        exact ihl hg
      · rw [if_neg hlt] at hg ⊢
        rw [Get_node, if_neg heq, if_neg hlt]
        exact ihr hg

theorem Get_mergeAt_ne (n : BinarySearchNode) (key : Key) (values : Insert) (k1 : Key)
    (hne : k1 ≠ key) :
    BinarySearchTree.Get { root := n.mergeAt key values } k1 =
      BinarySearchTree.Get { root := n } k1 := by
  induction n with
  | nil => rfl
  | node k v l r c ihl ihr =>
    rw [BinarySearchNode.mergeAt]
    split_ifs with h1 h2
    · subst h1
      rw [Get_node, Get_node, if_neg hne, if_neg hne]
    · rw [Get_node, Get_node, ihl]
    · rw [Get_node, Get_node, ihr]

theorem Get_blacken (n : BinarySearchNode) (key : Key) :
    BinarySearchTree.Get { root := n.blacken } key = BinarySearchTree.Get { root := n } key := by
  cases n with
  | nil => rfl
  | node k v l r c =>
    rw [BinarySearchNode.blacken, Get_node, Get_node]

theorem shape_mergeAt (n : BinarySearchNode) (key : Key) (values : Insert) :
    (n.mergeAt key values).shape = n.shape := by
  induction n with
  | nil => rfl
  | node k v l r c ihl ihr =>
    rw [BinarySearchNode.mergeAt]
    split_ifs
    · rfl
    · simp [BinarySearchNode.shape, ihl]
    · simp [BinarySearchNode.shape, ihr]

theorem shape_blacken_mergeAt (n : BinarySearchNode) (key : Key) (values : Insert) :
    (n.mergeAt key values).blacken.shape = n.blacken.shape := by
  cases n with
  | nil => rfl
  | node k v l r c =>
    have h := shape_mergeAt (.node k v l r c) key values
    rw [BinarySearchNode.mergeAt] at h ⊢
    split_ifs at h ⊢ <;>
      simp only [BinarySearchNode.blacken, BinarySearchNode.shape, Shape.node.injEq] at h ⊢ <;>
      simp [h]

theorem entries_mergeAt_filter (n : BinarySearchNode) (key : Key) (values : Insert) :
    (n.mergeAt key values).entries.filter (fun e => decide (e.1 ≠ key)) =
      n.entries.filter (fun e => decide (e.1 ≠ key)) := by
  induction n with
  | nil => rfl
  | node k v l r c ihl ihr =>
    rw [BinarySearchNode.mergeAt]
    split_ifs with h1 h2
    · subst h1
      simp [BinarySearchNode.entries]
    · simp only [BinarySearchNode.entries, List.filter_append, ihl]
    · simp only [BinarySearchNode.entries, List.filter_append, List.filter_cons, ihr]

theorem Insert_existing (rb : Rebalancer) (t : BinarySearchTree) (key : Key) (values : Insert)
    (layer : BitmapLayer) (hg : t.Get key = .ok layer) :
    t.Insert rb key values = .ok { root := (t.root.mergeAt key values).blacken } := by
  have hnil : t.root.IsNil = false := by
    cases hroot : t.root with
    | nil =>
      unfold BinarySearchTree.Get at hg
      rw [hroot] at hg
      simp at hg
    | node k v l r c => rfl
  have hins := insert_existing rb [] t.root key values layer hg
  have hp : (Outcome.mk (plug [] (t.root.mergeAt key values)) .nil).pick.IsNil = false := by
    rw [pick_of_nil]
    show (t.root.mergeAt key values).IsNil = false
    rw [mergeAt_IsNil, hnil]
  rw [Insert_eq rb t key values _ hnil hins hp]
  rfl

/-! ## Facts about whole insert sequences -/

theorem wellFormed_of_insertAll (ops : List (Key × Insert)) (t : BinarySearchTree)
    (h : insertAll Rebalance ops = .ok t) :
    WellFormed t ∧ t.root.entries = upsertAll ops [] := by
  obtain ⟨t1, h1, hw, he⟩ := insertAll_spec ops
  rw [h1, Except.ok.injEq] at h
  subst h
  exact ⟨hw, he⟩

theorem upsertAll_sorted (ops : List (Key × Insert)) (es : List (Key × BitmapLayer))
    (hs : sortedEntries es) : sortedEntries (upsertAll ops es) := by
  induction ops generalizing es with
  | nil => exact hs
  | cons op ops ih => exact ih _ (upsert_sorted op.1 op.2 es hs)

theorem lookup_of_mem (es : List (Key × BitmapLayer)) (hs : sortedEntries es) (k : Key)
    (v : BitmapLayer) (hm : (k, v) ∈ es) : lookup k es = some v := by
  induction es with
  | nil => simp at hm
  | cons a es ih =>
    obtain ⟨k0, v0⟩ := a
    unfold sortedEntries at hs
    rw [List.pairwise_cons] at hs
    rw [List.mem_cons] at hm
    rcases hm with hm | hm
    · simp only [Prod.mk.injEq] at hm
      rw [lookup, if_pos hm.1, hm.2]
    · have hne : k ≠ k0 := fun e => keyLt_ne (hs.1 (k, v) hm) e.symm
      rw [lookup, if_neg hne]
      exact ih hs.2 hm

theorem disjoint_mergeLayer (v : BitmapLayer) (values : Insert)
    (hd : Disjoint v.Additions v.Deletions) :
    Disjoint (mergeLayer v values).Additions (mergeLayer v values).Deletions := by
  rw [mergeLayer_eq]
  simp only
  rw [Finset.disjoint_left] at hd ⊢
  intro x hx hx2
  simp only [Finset.mem_sdiff, Finset.mem_union, List.mem_toFinset] at hx hx2
  rcases hx2 with ⟨h1, h2⟩ | h1
  · rcases hx.1 with h3 | h3
    · exact hd h3 h1
    · exact h2 h3
  · exact hx.2 h1

theorem disjoint_newLayer (values : Insert)
    (hd : ∀ x ∈ values.Additions, x ∉ values.Deletions) :
    Disjoint (newLayer values).Additions (newLayer values).Deletions := by
  rw [newLayer_eq]
  simp only
  rw [Finset.disjoint_left]
  intro x hx hx2
  rw [List.mem_toFinset] at hx hx2
  exact hd x hx hx2

theorem lookup_upsertAll_disjoint (ops : List (Key × Insert)) (es : List (Key × BitmapLayer))
    (hs : sortedEntries es) (k : Key) (v : BitmapLayer) (hl : lookup k es = some v)
    (hd : Disjoint v.Additions v.Deletions) :
    ∃ w, lookup k (upsertAll ops es) = some w ∧ Disjoint w.Additions w.Deletions := by
  induction ops generalizing es v with
  | nil => exact ⟨v, hl, hd⟩
  | cons op ops ih =>
    have hunf : upsertAll (op :: ops) es = upsertAll ops (upsert op.1 op.2 es) := rfl
    rw [hunf]
    by_cases hk : k = op.1
    · subst hk
      have h1 := lookup_upsert_self op.1 op.2 es hs
      rw [hl] at h1
      exact ih _ (upsert_sorted _ _ _ hs) _ h1 (disjoint_mergeLayer v op.2 hd)
    · have h1 := lookup_upsert_ne op.1 op.2 k es hk
      rw [hl] at h1
      exact ih _ (upsert_sorted _ _ _ hs) _ h1 hd

theorem upsertAll_append (ops1 ops2 : List (Key × Insert)) (es : List (Key × BitmapLayer)) :
    upsertAll (ops1 ++ ops2) es = upsertAll ops2 (upsertAll ops1 es) := by
  unfold upsertAll
  rw [List.foldl_append]

theorem getResult_ok_iff (o : Option BitmapLayer) (v : BitmapLayer) :
    getResult o = .ok v ↔ o = some v := by
  cases o <;> simp [getResult]

theorem getResult_notFound_iff (o : Option BitmapLayer) :
    getResult o = .error .NotFound ↔ o = none := by
  cases o <;> simp [getResult]

/-! ## The claims -/

/-- C1: after any finite sequence of Insert calls on the empty tree (any keys, any lists,
repeated keys allowed) FlattenInOrder returns nodes whose keys are strictly increasing in the
unsigned byte-wise lexicographic order, so that no key appears twice. -/
theorem C1_flatten_keys_strictly_increasing (ops : List (Key × Insert)) :
    ∃ t nodes, insertAll Rebalance ops = .ok t ∧ t.FlattenInOrder = .ok nodes ∧
      StrictlyIncreasing (nodes.map BinarySearchNode.key) ∧
      (nodes.map BinarySearchNode.key).Nodup := by
  obtain ⟨t, ht, hw, -⟩ := insertAll_spec ops
  have hinc : StrictlyIncreasing (t.root.nodes.map BinarySearchNode.key) := by
    unfold StrictlyIncreasing
    rw [nodes_keys, List.pairwise_map]
    exact hw.sorted
  refine ⟨t, t.root.nodes, ht, FlattenInOrder_eq t, hinc, ?_⟩
  exact List.Pairwise.imp (fun h => keyLt_ne h) hinc

/-- C2: with the rebalancer of section 4.5, the tree after each of the Insert calls of any
sequence started on the empty tree (the first `n` calls, for every `n`) has a black root, no red
node with a red child, and the same number of black nodes on every path from the root to a
missing child. -/
theorem C2_red_black_after_every_insert (ops : List (Key × Insert)) (n : Nat) :
    ∃ t, insertAll Rebalance (ops.take n) = .ok t ∧ t.isRedBlack := by
  obtain ⟨t, ht, hw, -⟩ := insertAll_spec (ops.take n)
  exact ⟨t, ht, isRedBlack_of_wellFormed t hw⟩

/-- C3: if Get(k) returns the layer (A, D), then Insert(k, adds, dels) succeeds, whatever the
rebalancer, and afterwards Get(k) returns additions (A ∪ adds) \ dels and deletions
(D \ adds) ∪ dels. -/
theorem C3_merge_existing_key (rebalance : Rebalancer) (t : BinarySearchTree) (k : Key)
    (A D : Finset Nat) (adds dels : List Nat)
    (hg : t.Get k = .ok { Additions := A, Deletions := D }) :
    ∃ t1, t.Insert rebalance k { Additions := adds, Deletions := dels } = .ok t1 ∧
      t1.Get k = .ok { Additions := (A ∪ adds.toFinset) \ dels.toFinset
                       Deletions := (D \ adds.toFinset) ∪ dels.toFinset } := by
  refine ⟨_, Insert_existing rebalance t k _ _ hg, ?_⟩
  rw [Get_blacken, Get_mergeAt_self _ _ _ _ hg, mergeLayer_eq]

/-- Witness for C3: the layer ({1}, {2}) at key "a", then Insert("a", adds=[2], dels=[]): Get
returns ({1, 2}, {}). -/
theorem C3_merge_existing_key_witness :
    BinarySearchTree.Get
        { root := .node [97] { Additions := {1}, Deletions := {2} } .nil .nil false } [97] =
        .ok { Additions := {1}, Deletions := {2} } ∧
      ∃ t1, BinarySearchTree.Insert Rebalance
          { root := .node [97] { Additions := {1}, Deletions := {2} } .nil .nil false } [97]
          { Additions := [2], Deletions := [] } = .ok t1 ∧
        t1.Get [97] = .ok { Additions := {1, 2}, Deletions := ∅ } :=
  ⟨rfl, (C3_merge_existing_key Rebalance
    { root := .node [97] { Additions := {1}, Deletions := {2} } .nil .nil false }
    [97] {1} {2} [2] [] rfl).imp
    (fun _ h => ⟨h.1, h.2.trans (congrArg Except.ok (by decide))⟩)⟩

/-- Counterexample for C4: the very first Insert("a", adds=[1], dels=[1]) on the empty tree
creates the layer ({1}, {1}), and id 1 is in both sets. -/
theorem C4_counterexample :
    insertAll Rebalance [([97], { Additions := [1], Deletions := [1] })] =
        .ok { root := .node [97] { Additions := {1}, Deletions := {1} } .nil .nil false } ∧
      BinarySearchTree.Get
          { root := .node [97] { Additions := {1}, Deletions := {1} } .nil .nil false } [97] =
        .ok { Additions := {1}, Deletions := {1} } ∧
      ¬ Disjoint ({1} : Finset Nat) {1} :=
  ⟨rfl, rfl, by decide⟩

/-- C4 (amended): take any tree built by Inserts that does not contain key k, then the Insert
that creates k with addition and deletion lists that share no id, then any further Inserts (on k
or on other keys, their lists may share ids): the layer that Get(k) returns afterwards has no id
in both additions and deletions. -/
theorem C4_disjoint_when_first_lists_disjoint (before : List (Key × Insert)) (k : Key)
    (first : Insert) (later : List (Key × Insert))
    (hk : k ∉ before.map Prod.fst)
    (hd : ∀ x ∈ first.Additions, x ∉ first.Deletions) :
    ∃ t layer, insertAll Rebalance (before ++ (k, first) :: later) = .ok t ∧
      t.Get k = .ok layer ∧ Disjoint layer.Additions layer.Deletions := by
  obtain ⟨t, ht, hw, he⟩ := insertAll_spec (before ++ (k, first) :: later)
  have hs0 : sortedEntries (upsertAll before []) :=
    upsertAll_sorted before [] (by simp [sortedEntries])
  have hnone : lookup k (upsertAll before []) = none := by
    cases hl : lookup k (upsertAll before []) with
    | none => rfl
    | some v =>
      have := (lookup_isSome_iff k _).mp ⟨v, hl⟩
      rw [mem_keys_upsertAll] at this
      simp [hk] at this
  have hfirst := lookup_upsert_self k first _ hs0
  rw [hnone] at hfirst
  obtain ⟨w, hw1, hw2⟩ := lookup_upsertAll_disjoint later _ (upsert_sorted k first _ hs0) k _
    hfirst (disjoint_newLayer first hd)
  refine ⟨t, w, ht, ?_, hw2⟩
  rw [Get_eq_lookup t k hw.sorted, he, upsertAll_append, getResult_ok_iff]
  exact hw1

/-- Witness for C4 (amended): Insert("a", [1], [2]) on the empty tree, then
Insert("a", [2], [2]). -/
theorem C4_disjoint_when_first_lists_disjoint_witness :
    ([97] : Key) ∉ ([] : List (Key × Insert)).map Prod.fst ∧
      (∀ x ∈ ({ Additions := [1], Deletions := [2] } : Insert).Additions,
        x ∉ ({ Additions := [1], Deletions := [2] } : Insert).Deletions) ∧
      ∃ t layer, insertAll Rebalance
          ([] ++ ([97], { Additions := [1], Deletions := [2] }) ::
            [([97], { Additions := [2], Deletions := [2] })]) = .ok t ∧
        t.Get [97] = .ok layer ∧ Disjoint layer.Additions layer.Deletions :=
  ⟨by simp, by decide,
    C4_disjoint_when_first_lists_disjoint [] [97] { Additions := [1], Deletions := [2] }
      [([97], { Additions := [2], Deletions := [2] })] (by simp) (by decide)⟩

/-- C5: on the tree built from the empty tree by any sequence of Inserts, Get(k) returns a
layer exactly when some Insert of the sequence used a key equal to k byte for byte, and it
returns the NotFound error otherwise (the empty sequence, prefixes and extensions of inserted
keys included). -/
theorem C5_get_found_iff_inserted (ops : List (Key × Insert)) (k : Key) :
    ∃ t, insertAll Rebalance ops = .ok t ∧
      ((∃ layer, t.Get k = .ok layer) ↔ k ∈ ops.map Prod.fst) ∧
      (k ∉ ops.map Prod.fst → t.Get k = .error .NotFound) := by
  obtain ⟨t, ht, hw, he⟩ := insertAll_spec ops
  have hmem : (∃ v, lookup k t.root.entries = some v) ↔ k ∈ ops.map Prod.fst := by
    rw [lookup_isSome_iff, he, mem_keys_upsertAll]
    simp
  refine ⟨t, ht, ?_, ?_⟩
  · rw [Get_eq_lookup t k hw.sorted, ← hmem]
    constructor
    · rintro ⟨layer, hl⟩
      exact ⟨layer, (getResult_ok_iff _ _).mp hl⟩
    · rintro ⟨layer, hl⟩
      exact ⟨layer, (getResult_ok_iff _ _).mpr hl⟩
  · intro hk
    rw [Get_eq_lookup t k hw.sorted, getResult_notFound_iff]
    cases hl : lookup k t.root.entries with
    | none => rfl
    | some v => exact absurd (hmem.mp ⟨v, hl⟩) hk

/-- C6: on a tree built by Inserts, Insert(k, adds, dels) leaves the result of Get for every
other key as it was, both when k is present and when k is new (rotations and a new root
included). -/
theorem C6_insert_keeps_other_keys (ops : List (Key × Insert)) (k : Key) (values : Insert)
    (k1 : Key) (hne : k1 ≠ k) :
    ∃ t t1, insertAll Rebalance ops = .ok t ∧ t.Insert Rebalance k values = .ok t1 ∧
      t1.Get k1 = t.Get k1 := by
  obtain ⟨t, ht, hw, -⟩ := insertAll_spec ops
  obtain ⟨t1, ht1, hw1, he1, -⟩ := Insert_spec t k values hw
  refine ⟨t, t1, ht, ht1, ?_⟩
  rw [Get_eq_lookup t1 k1 hw1.sorted, Get_eq_lookup t k1 hw.sorted, he1,
    lookup_upsert_ne _ _ _ _ hne]

/-- Witness for C6: keys 1 and 2 are in the tree, Insert of key 3 rotates and replaces the root,
and Get of key 1 is unchanged. -/
theorem C6_insert_keeps_other_keys_witness :
    ([1] : Key) ≠ [3] ∧
      ∃ t t1, insertAll Rebalance
          [([1], { Additions := [10], Deletions := [] }),
            ([2], { Additions := [20], Deletions := [] })] = .ok t ∧
        t.Insert Rebalance [3] { Additions := [30], Deletions := [] } = .ok t1 ∧
        t1.Get [1] = t.Get [1] :=
  ⟨by decide, C6_insert_keeps_other_keys _ [3] _ [1] (by decide)⟩

/-- C7: on the tree built from the empty tree by any sequence of Inserts, FlattenInOrder
returns one node per distinct inserted key (the keys of the nodes are pairwise different, they
are exactly the inserted keys, and the length is the number of distinct inserted keys; no node
for the empty sequence), and the value of each node is the layer that Get returns for its
key. -/
theorem C7_flatten_one_node_per_key (ops : List (Key × Insert)) :
    ∃ t nodes, insertAll Rebalance ops = .ok t ∧ t.FlattenInOrder = .ok nodes ∧
      nodes.length = (ops.map Prod.fst).toFinset.card ∧
      (nodes.map BinarySearchNode.key).Nodup ∧
      (∀ k, k ∈ nodes.map BinarySearchNode.key ↔ k ∈ ops.map Prod.fst) ∧
      (ops = [] → nodes = []) ∧
      (∀ n ∈ nodes, t.Get n.key = .ok n.value) := by
  obtain ⟨t, ht, hw, he⟩ := insertAll_spec ops
  have hsorted : (t.root.nodes.map BinarySearchNode.key).Pairwise keyLt := by
    rw [nodes_keys, List.pairwise_map]
    exact hw.sorted
  have hnodup : (t.root.nodes.map BinarySearchNode.key).Nodup :=
    List.Pairwise.imp (fun h => keyLt_ne h) hsorted
  have hkeys : ∀ k, k ∈ t.root.nodes.map BinarySearchNode.key ↔ k ∈ ops.map Prod.fst := by
    intro k
    rw [nodes_keys, he, mem_keys_upsertAll]
    simp
  refine ⟨t, t.root.nodes, ht, FlattenInOrder_eq t, ?_, hnodup, hkeys, ?_, ?_⟩
  · have hset : (t.root.nodes.map BinarySearchNode.key).toFinset =
        (ops.map Prod.fst).toFinset := by
      ext k
      rw [List.mem_toFinset, List.mem_toFinset]
      exact hkeys k
    rw [← hset, List.toFinset_card_of_nodup hnodup, List.length_map]
  · intro hops
    subst hops
    have h0 : t.root.entries = [] := he
    have h1 := nodes_entries t.root
    rw [h0] at h1
    exact List.map_eq_nil_iff.mp h1
  · intro n hn
    rw [Get_eq_lookup t n.key hw.sorted, getResult_ok_iff]
    apply lookup_of_mem _ hw.sorted
    rw [← nodes_entries]
    exact List.mem_map.mpr ⟨n, hn, rfl⟩

/-- C8: on a tree built by Inserts in which Get(k) reports NotFound (the empty tree included),
Insert(k, adds, dels) succeeds and afterwards Get(k) returns the set of the ids in adds as
additions and the set of the ids in dels as deletions. -/
theorem C8_new_key_layer_from_lists (ops : List (Key × Insert)) (t : BinarySearchTree)
    (k : Key) (adds dels : List Nat)
    (ht : insertAll Rebalance ops = .ok t) (hg : t.Get k = .error .NotFound) :
    ∃ t1, t.Insert Rebalance k { Additions := adds, Deletions := dels } = .ok t1 ∧
      t1.Get k = .ok { Additions := adds.toFinset, Deletions := dels.toFinset } := by
  obtain ⟨hw, -⟩ := wellFormed_of_insertAll ops t ht
  obtain ⟨t1, ht1, hw1, he1, -⟩ := Insert_spec t k { Additions := adds, Deletions := dels } hw
  refine ⟨t1, ht1, ?_⟩
  rw [Get_eq_lookup t k hw.sorted, getResult_notFound_iff] at hg
  rw [Get_eq_lookup t1 k hw1.sorted, he1, lookup_upsert_self _ _ _ hw.sorted, hg, newLayer_eq]
  rfl

/-- Witness for C8: Insert("a", [1, 2, 2], []) on the empty tree, then Get("a") returns
({1, 2}, {}). -/
theorem C8_new_key_layer_from_lists_witness :
    (insertAll Rebalance [] = .ok { root := .nil } ∧
      BinarySearchTree.Get { root := .nil } [97] = .error .NotFound) ∧
      ∃ t1, BinarySearchTree.Insert Rebalance { root := .nil } [97]
          { Additions := [1, 2, 2], Deletions := [] } = .ok t1 ∧
        t1.Get [97] = .ok { Additions := {1, 2}, Deletions := ∅ } :=
  ⟨⟨rfl, rfl⟩, (C8_new_key_layer_from_lists [] { root := .nil } [97] [1, 2, 2] [] rfl rfl).imp
    (fun _ h => ⟨h.1, h.2.trans (congrArg Except.ok (by decide))⟩)⟩

/-- C9: on any tree in which Get(k) finds a layer, Insert(k, adds, dels) gives the same tree for
every rebalancer (the rebalancer has no part in the result), `insert` returns nil (the root
pointer is not replaced) and leaves keys, links and colours as they were, the resulting tree
has the structure of the old one with the root coloured black, the entries with a key other
than k are the same in the same order, and Get of every other key is unchanged. -/
theorem C9_existing_key_no_structural_change (t : BinarySearchTree) (k : Key) (values : Insert)
    (layer : BitmapLayer) (hg : t.Get k = .ok layer) :
    ∃ t1, (∀ rebalance : Rebalancer, t.Insert rebalance k values = .ok t1) ∧
      (∀ rebalance : Rebalancer, ∃ out,
        BinarySearchNode.insert rebalance [] t.root k values = .ok out ∧
          out.newRoot = .nil ∧ out.atRoot.shape = t.root.shape) ∧
      t1.root.shape = t.root.blacken.shape ∧
      t1.root.entries.filter (fun e => decide (e.1 ≠ k)) =
        t.root.entries.filter (fun e => decide (e.1 ≠ k)) ∧
      (∀ k1, k1 ≠ k → t1.Get k1 = t.Get k1) := by
  refine ⟨{ root := (t.root.mergeAt k values).blacken },
    fun rb => Insert_existing rb t k values layer hg, ?_, ?_, ?_, ?_⟩
  · intro rb
    exact ⟨_, insert_existing rb [] t.root k values layer hg, rfl, shape_mergeAt _ _ _⟩
  · exact shape_blacken_mergeAt _ _ _
  · show (t.root.mergeAt k values).blacken.entries.filter _ = _
    rw [entries_blacken, entries_mergeAt_filter]
  · intro k1 hne
    rw [Get_blacken, Get_mergeAt_ne _ _ _ _ hne]

/-- Witness for C9: Insert on key 0 of the two-node tree. -/
theorem C9_existing_key_no_structural_change_witness :
    twoNodeTree.Get [0] = .ok { Additions := {2}, Deletions := ∅ } ∧
      ∃ t1, (∀ rebalance : Rebalancer, twoNodeTree.Insert rebalance [0]
          { Additions := [3], Deletions := [2] } = .ok t1) ∧
        (∀ rebalance : Rebalancer, ∃ out,
          BinarySearchNode.insert rebalance [] twoNodeTree.root [0]
            { Additions := [3], Deletions := [2] } = .ok out ∧
            out.newRoot = .nil ∧ out.atRoot.shape = twoNodeTree.root.shape) ∧
        t1.root.shape = twoNodeTree.root.blacken.shape ∧
        t1.root.entries.filter (fun e => decide (e.1 ≠ [0])) =
          twoNodeTree.root.entries.filter (fun e => decide (e.1 ≠ [0])) ∧
        (∀ k1, k1 ≠ [0] → t1.Get k1 = twoNodeTree.Get k1) :=
  ⟨rfl, C9_existing_key_no_structural_change twoNodeTree [0]
    { Additions := [3], Deletions := [2] } { Additions := {2}, Deletions := ∅ } rfl⟩

/-- C10: on every tree built from the empty tree by Inserts, Insert with any key and lists (the
empty key and empty lists included) returns a tree and reaches no fault: no nil pointer is
dereferenced and the rebalancer never finds a red parent without a grandparent. -/
theorem C10_insert_never_fails (ops : List (Key × Insert)) (key : Key) (values : Insert) :
    ∃ t t1, insertAll Rebalance ops = .ok t ∧ t.Insert Rebalance key values = .ok t1 := by
  obtain ⟨t, ht, hw, -⟩ := insertAll_spec ops
  obtain ⟨t1, ht1, -⟩ := Insert_spec t key values hw
  exact ⟨t, t1, ht, ht1⟩

/-! ## Key order: extensions and single bytes -/

theorem keyLt_append (k s : Key) (hs : s ≠ []) : keyLt k (k ++ s) := by
  unfold keyLt
  induction k with
  | nil =>
    cases s with
    | nil => exact absurd rfl hs
    | cons b bs => simp [bytesCompare]
  | cons x xs ih =>
    simp only [List.cons_append, bytesCompare, lt_irrefl, if_false]
    exact ih

theorem keyLt_of_byte_lt (p r1 r2 : Key) (a b : Fin 256) (hab : a < b) :
    keyLt (p ++ a :: r1) (p ++ b :: r2) := by
  unfold keyLt
  induction p with
  | nil => simp [bytesCompare, hab]
  | cons x xs ih =>
    simp only [List.cons_append, bytesCompare, lt_irrefl, if_false]
    exact ih

theorem flatten_two_keys (a b : Key) (va vb : Insert) (hab : keyLt a b)
    (ops : List (Key × Insert)) (hops : ops = [(a, va), (b, vb)] ∨ ops = [(b, vb), (a, va)]) :
    ∃ t nodes, insertAll Rebalance ops = .ok t ∧ t.FlattenInOrder = .ok nodes ∧
      nodes.map (fun n => (n.key, n.value)) = [(a, newLayer va), (b, newLayer vb)] := by
  obtain ⟨t, ht, -, he⟩ := insertAll_spec ops
  refine ⟨t, t.root.nodes, ht, FlattenInOrder_eq t, ?_⟩
  rw [nodes_entries, he]
  have hne : a ≠ b := keyLt_ne hab
  have hne2 : b ≠ a := fun e => hne e.symm
  have hnlt : ¬ keyLt b a := keyLt_asymm hab
  rcases hops with h | h
  · subst h
    simp [upsertAll, upsert, hne2, hnlt]
  · subst h
    simp [upsertAll, upsert, hne, hab]

/-! ## Flattening leaves the memory as it is -/

theorem flattenInOrderRun_eq (n : BinarySearchNode) (hnil : n.IsNil = false) :
    n.flattenInOrderRun = .ok (n, n.nodes) := by
  induction n with
  | nil => simp [BinarySearchNode.IsNil] at hnil
  | node k v l r c ihl ihr =>
    cases l with
    | nil =>
      cases r with
      | nil => rfl
      | node rk rv rl rr rc =>
        unfold BinarySearchNode.flattenInOrderRun
        simp only [ihr rfl]
        rfl
    | node lk lv ll lr lc =>
      cases r with
      | nil =>
        unfold BinarySearchNode.flattenInOrderRun
        simp only [ihl rfl]
        rfl
      | node rk rv rl rr rc =>
        unfold BinarySearchNode.flattenInOrderRun
        simp only [ihl rfl, ihr rfl]
        rfl

theorem FlattenInOrderRun_eq (t : BinarySearchTree) :
    t.FlattenInOrderRun = .ok (t, t.root.nodes) := by
  unfold BinarySearchTree.FlattenInOrderRun
  cases hroot : t.root with
  | nil =>
    have ht : t = { root := .nil } := by cases t; simp_all
    rw [ht]
    rfl
  | node k v l r c =>
    have ht : t = { root := .node k v l r c } := by cases t; simp_all
    simp only [flattenInOrderRun_eq _ (rfl : (BinarySearchNode.node k v l r c).IsNil = false)]
    rw [ht]

/-! ## The root after `Insert` -/

theorem Insert_root_black (rb : Rebalancer) (t : BinarySearchTree) (key : Key)
    (values : Insert) (t1 : BinarySearchTree) (h : t.Insert rb key values = .ok t1) :
    t1.root.IsNil = false ∧ t1.root.IsRed = false := by
  unfold BinarySearchTree.Insert at h
  cases hroot : t.root with
  | nil =>
    rw [hroot] at h
    simp only [Except.ok.injEq] at h
    subst h
    exact ⟨rfl, rfl⟩
  | node k v l r c =>
    rw [hroot] at h
    simp only at h
    cases hins : BinarySearchNode.insert rb [] (.node k v l r c) key values with
    | error e => rw [hins] at h; simp at h
    | ok out =>
      rw [hins] at h
      simp only at h
      cases hnr : out.newRoot with
      | nil =>
        rw [hnr] at h
        simp only at h
        cases har : out.atRoot with
        | nil => rw [har] at h; simp at h
        | node k2 v2 l2 r2 c2 =>
          rw [har] at h
          simp only [Except.ok.injEq] at h
          subst h
          exact ⟨rfl, rfl⟩
      | node k2 v2 l2 r2 c2 =>
        rw [hnr] at h
        simp only [Except.ok.injEq] at h
        subst h
        exact ⟨rfl, rfl⟩

/-! ## Repeated merge -/

theorem mergeLayer_idem (v : BitmapLayer) (values : Insert) :
    mergeLayer (mergeLayer v values) values = mergeLayer v values := by
  rw [mergeLayer_eq (mergeLayer v values), mergeLayer_eq v]
  simp only [BitmapLayer.mk.injEq]
  constructor
  · ext x
    simp only [Finset.mem_sdiff, Finset.mem_union, List.mem_toFinset]
    tauto
  · ext x
    simp only [Finset.mem_sdiff, Finset.mem_union, List.mem_toFinset]
    tauto

theorem mergeAt_idem (n : BinarySearchNode) (key : Key) (values : Insert) :
    (n.mergeAt key values).mergeAt key values = n.mergeAt key values := by
  induction n with
  | nil => rfl
  | node k v l r c ihl ihr =>
    rw [BinarySearchNode.mergeAt]
    split_ifs with h1 h2
    · rw [BinarySearchNode.mergeAt, if_pos h1, mergeLayer_idem]
    · rw [BinarySearchNode.mergeAt, if_neg h1, if_pos h2, ihl]
    · rw [BinarySearchNode.mergeAt, if_neg h1, if_neg h2, ihr]

theorem mergeAt_blacken (n : BinarySearchNode) (key : Key) (values : Insert) :
    n.blacken.mergeAt key values = (n.mergeAt key values).blacken := by
  cases n with
  | nil => rfl
  | node k v l r c =>
    rw [BinarySearchNode.blacken, BinarySearchNode.mergeAt, BinarySearchNode.mergeAt]
    split_ifs <;> rfl

theorem blacken_blacken (n : BinarySearchNode) : n.blacken.blacken = n.blacken := by
  cases n <;> rfl

/-! ## The claims, continued -/

/-- C11: for every key k and every non-empty byte string s, inserting k and k++s into the empty
tree, in either order, makes FlattenInOrder return the node for k and then the node for k++s;
`bytes.Compare` puts k before k++s, and it compares bytes as unsigned numbers: a key with
byte 0x7F sorts before one with 0x80 at the same position, in the comparison and in the
flattened sequence. -/
theorem C11_key_before_its_extension (k s : Key) (v1 v2 : Insert) (hs : s ≠ []) :
    (∃ t nodes, insertAll Rebalance [(k, v1), (k ++ s, v2)] = .ok t ∧
      t.FlattenInOrder = .ok nodes ∧
      nodes.map (fun n => (n.key, n.value)) = [(k, newLayer v1), (k ++ s, newLayer v2)]) ∧
    (∃ t nodes, insertAll Rebalance [(k ++ s, v2), (k, v1)] = .ok t ∧
      t.FlattenInOrder = .ok nodes ∧
      nodes.map (fun n => (n.key, n.value)) = [(k, newLayer v1), (k ++ s, newLayer v2)]) ∧
    bytesCompare k (k ++ s) < 0 ∧
    (∀ p r1 r2 : Key, bytesCompare (p ++ 0x7F :: r1) (p ++ 0x80 :: r2) < 0) ∧
    (∀ (p r1 r2 : Key) (ops : List (Key × Insert)),
      ops = [(p ++ 0x7F :: r1, v1), (p ++ 0x80 :: r2, v2)] ∨
        ops = [(p ++ 0x80 :: r2, v2), (p ++ 0x7F :: r1, v1)] →
      ∃ t nodes, insertAll Rebalance ops = .ok t ∧ t.FlattenInOrder = .ok nodes ∧
        nodes.map BinarySearchNode.key = [p ++ 0x7F :: r1, p ++ 0x80 :: r2]) := by
  have hlt := keyLt_append k s hs
  have hbyte : ∀ p r1 r2 : Key, keyLt (p ++ 0x7F :: r1) (p ++ 0x80 :: r2) :=
    fun p r1 r2 => keyLt_of_byte_lt p r1 r2 0x7F 0x80 (by decide)
  refine ⟨flatten_two_keys _ _ _ _ hlt _ (Or.inl rfl), flatten_two_keys _ _ _ _ hlt _ (Or.inr rfl),
    hlt, hbyte, ?_⟩
  intro p r1 r2 ops hops
  obtain ⟨t, nodes, h1, h2, h3⟩ := flatten_two_keys _ _ v1 v2 (hbyte p r1 r2) ops hops
  refine ⟨t, nodes, h1, h2, ?_⟩
  have := congrArg (List.map Prod.fst) h3
  simpa [List.map_map, Function.comp_def] using this

/-- Witness for C11: "a" and "ab", and "a" and its extension by the byte 0x00. -/
theorem C11_key_before_its_extension_witness :
    (([98] : Key) ≠ [] ∧ bytesCompare [97] ([97] ++ [98]) < 0) ∧
      (([0] : Key) ≠ [] ∧
        ∃ t nodes, insertAll Rebalance
            [([97] ++ [0], { Additions := [2], Deletions := [] }),
              ([97], { Additions := [1], Deletions := [] })] = .ok t ∧
          t.FlattenInOrder = .ok nodes ∧
          nodes.map (fun n => (n.key, n.value)) =
            [([97], newLayer { Additions := [1], Deletions := [] }),
              ([97] ++ [0], newLayer { Additions := [2], Deletions := [] })]) :=
  ⟨⟨by decide,
      (C11_key_before_its_extension [97] [98] { Additions := [], Deletions := [] }
        { Additions := [], Deletions := [] } (by decide)).2.2.1⟩,
    ⟨by decide,
      (C11_key_before_its_extension [97] [0] { Additions := [1], Deletions := [] }
        { Additions := [2], Deletions := [] } (by decide)).2.1⟩⟩

/-- C12: on every tree FlattenInOrder returns a sequence and leaves the tree as it is
(structure, colours, keys and layers: the tree after the call equals the tree before), and a
second call right after the first leaves the tree as it is again and returns the same nodes in
the same order. -/
theorem C12_flatten_read_only_repeatable (t : BinarySearchTree) :
    ∃ nodes, t.FlattenInOrderRun = .ok (t, nodes) ∧ t.FlattenInOrder = .ok nodes ∧
      t.FlattenInOrderTwice = .ok (t, nodes, nodes) := by
  refine ⟨t.root.nodes, FlattenInOrderRun_eq t, FlattenInOrder_eq t, ?_⟩
  unfold BinarySearchTree.FlattenInOrderTwice
  simp only [FlattenInOrderRun_eq t]

/-- C13: whatever the rebalancer is and whatever tree Insert starts from (red-black or not):
on the empty tree Insert creates a single black node without children, at the root; on a
non-empty tree Insert ends with the root pointer that `insert` leaves (the returned node when
there is one, else the old root) coloured black; and every tree that Insert returns has a root,
which is black. -/
theorem C13_root_black_after_insert (rebalance : Rebalancer) (t : BinarySearchTree) (key : Key)
    (values : Insert) :
    (t.root = .nil →
      t.Insert rebalance key values =
        .ok { root := .node key (newLayer values) .nil .nil false }) ∧
    (∀ out, t.root.IsNil = false →
      BinarySearchNode.insert rebalance [] t.root key values = .ok out →
      out.pick.IsNil = false →
      t.Insert rebalance key values = .ok { root := out.pick.blacken }) ∧
    (∀ t1, t.Insert rebalance key values = .ok t1 →
      t1.root.IsNil = false ∧ t1.root.IsRed = false) := by
  refine ⟨?_, ?_, ?_⟩
  · intro hroot
    unfold BinarySearchTree.Insert
    rw [hroot]
  · intro out hnil hins hpick
    exact Insert_eq rebalance t key values out hnil hins hpick
  · intro t1 h
    exact Insert_root_black rebalance t key values t1 h

/-- Witness for C13: the start tree has a red root, and the rebalancer hands back a red node;
the tree after Insert has that node as its root, coloured black. -/
theorem C13_root_black_after_insert_witness :
    redRootTree.Insert redRebalancer [3] { Additions := [], Deletions := [] } =
        .ok { root := .node [7] { Additions := ∅, Deletions := ∅ } .nil .nil false } ∧
      ((BinarySearchTree.mk (.node [7] { Additions := ∅, Deletions := ∅ } .nil .nil false)).root.IsNil
          = false ∧
        (BinarySearchTree.mk (.node [7] { Additions := ∅, Deletions := ∅ } .nil .nil false)).root.IsRed
          = false) :=
  ⟨rfl, (C13_root_black_after_insert redRebalancer redRootTree [3]
    { Additions := [], Deletions := [] }).2.2 _ rfl⟩

/-- C16: on any tree in which Get(k) finds a layer, and for any rebalancer, Insert(k, adds,
dels) followed by the same Insert(k, adds, dels) gives the tree that the first Insert gives. -/
theorem C16_repeated_insert_changes_nothing (rebalance : Rebalancer) (t : BinarySearchTree)
    (k : Key) (values : Insert) (layer : BitmapLayer) (hg : t.Get k = .ok layer) :
    ∃ t1, t.Insert rebalance k values = .ok t1 ∧ t1.Insert rebalance k values = .ok t1 := by
  refine ⟨{ root := (t.root.mergeAt k values).blacken },
    Insert_existing rebalance t k values layer hg, ?_⟩
  have hg1 : BinarySearchTree.Get { root := (t.root.mergeAt k values).blacken } k =
      .ok (mergeLayer layer values) := by
    rw [Get_blacken]
    exact Get_mergeAt_self _ _ _ _ hg
  rw [Insert_existing rebalance _ k values _ hg1]
  simp only [mergeAt_blacken, mergeAt_idem, blacken_blacken]

/-- Witness for C16: Insert("a", adds=[2], dels=[1]) twice on the layer ({1}, {2}). -/
theorem C16_repeated_insert_changes_nothing_witness :
    BinarySearchTree.Get
        { root := .node [97] { Additions := {1}, Deletions := {2} } .nil .nil false } [97] =
        .ok { Additions := {1}, Deletions := {2} } ∧
      ∃ t1, BinarySearchTree.Insert Rebalance
          { root := .node [97] { Additions := {1}, Deletions := {2} } .nil .nil false } [97]
          { Additions := [2], Deletions := [1] } = .ok t1 ∧
        t1.Insert Rebalance [97] { Additions := [2], Deletions := [1] } = .ok t1 :=
  ⟨rfl, C16_repeated_insert_changes_nothing Rebalance
    { root := .node [97] { Additions := {1}, Deletions := {2} } .nil .nil false } [97]
    { Additions := [2], Deletions := [1] } { Additions := {1}, Deletions := {2} } rfl⟩

/-- C17: on any tree in which Get(k) finds a layer whose additions and deletions share no id,
and for any rebalancer and any lists adds and dels (they may share ids), after Insert(k, adds,
dels) the layer at k has additions and deletions that share no id, every id of dels is in the
deletions, and every id of adds that is not in dels is in the additions. -/
theorem C17_merge_preserves_disjointness (rebalance : Rebalancer) (t : BinarySearchTree)
    (k : Key) (layer : BitmapLayer) (adds dels : List Nat) (hg : t.Get k = .ok layer)
    (hd : Disjoint layer.Additions layer.Deletions) :
    ∃ t1 layer1, t.Insert rebalance k { Additions := adds, Deletions := dels } = .ok t1 ∧
      t1.Get k = .ok layer1 ∧ Disjoint layer1.Additions layer1.Deletions ∧
      (∀ x ∈ dels, x ∈ layer1.Deletions) ∧
      (∀ x ∈ adds, x ∉ dels → x ∈ layer1.Additions) := by
  refine ⟨_, mergeLayer layer { Additions := adds, Deletions := dels },
    Insert_existing rebalance t k _ layer hg, ?_, disjoint_mergeLayer layer _ hd, ?_, ?_⟩
  · rw [Get_blacken]
    exact Get_mergeAt_self _ _ _ _ hg
  · intro x hx
    rw [mergeLayer_eq]
    simp only [Finset.mem_union, List.mem_toFinset]
    exact Or.inr hx
  · intro x hx hnx
    rw [mergeLayer_eq]
    simp only [Finset.mem_sdiff, Finset.mem_union, List.mem_toFinset]
    exact ⟨Or.inr hx, hnx⟩

/-- Witness for C17: the layer ({1}, {2}) and Insert("a", adds=[2, 3], dels=[3, 4]). -/
theorem C17_merge_preserves_disjointness_witness :
    (BinarySearchTree.Get
        { root := .node [97] { Additions := {1}, Deletions := {2} } .nil .nil false } [97] =
        .ok { Additions := {1}, Deletions := {2} } ∧
      Disjoint ({1} : Finset Nat) {2}) ∧
      ∃ t1 layer1, BinarySearchTree.Insert Rebalance
          { root := .node [97] { Additions := {1}, Deletions := {2} } .nil .nil false } [97]
          { Additions := [2, 3], Deletions := [3, 4] } = .ok t1 ∧
        t1.Get [97] = .ok layer1 ∧ Disjoint layer1.Additions layer1.Deletions ∧
        (∀ x ∈ [3, 4], x ∈ layer1.Deletions) ∧
        (∀ x ∈ [2, 3], x ∉ [3, 4] → x ∈ layer1.Additions) :=
  ⟨⟨rfl, by decide⟩, C17_merge_preserves_disjointness Rebalance
    { root := .node [97] { Additions := {1}, Deletions := {2} } .nil .nil false } [97]
    { Additions := {1}, Deletions := {2} } [2, 3] [3, 4] rfl (by decide)⟩

end roaringset


namespace esvector

/-! ## The loop of the merge -/

theorem pending_cons_some {α : Type} (single : BatchEntry α) (rest : List (BatchEntry α))
    (msg : String) (h : single.Err = some msg) : pending (single :: rest) = pending rest := by
  simp [pending, h]

theorem pending_cons_none {α : Type} (single : BatchEntry α) (rest : List (BatchEntry α))
    (h : single.Err = none) : pending (single :: rest) = pending rest + 1 := by
  simp [pending, h]

theorem mergeLoop_cons_some {α ε : Type} (format : ε → String) (items : List (bulkItem ε))
    (b : Nat) (single : BatchEntry α) (rest : List (BatchEntry α)) (msg : String)
    (h : single.Err = some msg) :
    mergeLoop format items b (single :: rest) =
      match mergeLoop format items b rest with
      | .error f => .error f
      | .ok out => .ok (single :: out) := by
  rw [mergeLoop]
  simp only [h]

theorem mergeLoop_cons_none {α ε : Type} (format : ε → String) (items : List (bulkItem ε))
    (b : Nat) (single : BatchEntry α) (rest : List (BatchEntry α)) (item : bulkItem ε)
    (index : bulkIndexItem ε) (h : single.Err = none) (hitem : items[b]? = some item)
    (hindex : item.Index = some index) :
    mergeLoop format items b (single :: rest) =
      match mergeLoop format items (b + 1) rest with
      | .error f => .error f
      | .ok out => .ok ({ single with Err := index.Error.map format } :: out) := by
  obtain ⟨e, c⟩ := single
  simp only at h
  subst h
  rw [mergeLoop]
  simp only [hitem, hindex]
  cases mergeLoop format items (b + 1) rest with
  | error f => rfl
  | ok out =>
    cases hE : index.Error with
    | none => rfl
    | some err => rfl

theorem rank_zero {α : Type} (batch : List (BatchEntry α)) : rank batch 0 = 0 := rfl

theorem rank_succ_some {α : Type} (single : BatchEntry α) (rest : List (BatchEntry α))
    (msg : String) (h : single.Err = some msg) (i : Nat) :
    rank (single :: rest) (i + 1) = rank rest i := by
  unfold rank
  rw [List.take_succ_cons, pending_cons_some _ _ msg h]

theorem rank_succ_none {α : Type} (single : BatchEntry α) (rest : List (BatchEntry α))
    (h : single.Err = none) (i : Nat) :
    rank (single :: rest) (i + 1) = rank rest i + 1 := by
  unfold rank
  rw [List.take_succ_cons, pending_cons_none _ _ h]

theorem mergeLoop_ok {α ε : Type} (format : ε → String) (items : List (bulkItem ε)) (b : Nat)
    (batch : List (BatchEntry α))
    (hidx : ∀ j, j < pending batch →
      ∃ item index, items[b + j]? = some item ∧ item.Index = some index) :
    ∃ out, mergeLoop format items b batch = .ok out ∧ out.length = batch.length ∧
      ∀ i e, batch[i]? = some e →
        (∀ msg, e.Err = some msg → out[i]? = some e) ∧
        (e.Err = none → ∃ item index, items[b + rank batch i]? = some item ∧
          item.Index = some index ∧
          out[i]? = some { e with Err := index.Error.map format }) := by
  induction batch generalizing b with
  | nil =>
    refine ⟨[], rfl, rfl, ?_⟩
    intro i e he
    simp at he
  | cons single rest ih =>
    cases hs : single.Err with
    | some msg =>
      rw [pending_cons_some _ _ msg hs] at hidx
      obtain ⟨out, ho, hl, hall⟩ := ih b hidx
      refine ⟨single :: out, ?_, ?_, ?_⟩
      · rw [mergeLoop_cons_some _ _ _ _ _ msg hs, ho]
      · simp [hl]
      · intro i e he
        cases i with
        | zero =>
          simp only [List.getElem?_cons_zero, Option.some.injEq] at he
          subst he
          refine ⟨fun _ _ => List.getElem?_cons_zero, fun hn => ?_⟩
          rw [hs] at hn
          simp at hn
        | succ i =>
          rw [List.getElem?_cons_succ] at he
          rw [List.getElem?_cons_succ, rank_succ_some _ _ msg hs]
          exact hall i e he
    | none =>
      rw [pending_cons_none _ _ hs] at hidx
      obtain ⟨item, index, hitem, hindex⟩ := hidx 0 (Nat.succ_pos _)
      rw [Nat.add_zero] at hitem
      have hidx1 : ∀ j, j < pending rest →
          ∃ item index, items[b + 1 + j]? = some item ∧ item.Index = some index := by
        intro j hj
        have := hidx (j + 1) (Nat.succ_lt_succ hj)
        rwa [show b + (j + 1) = b + 1 + j by omega] at this
      obtain ⟨out, ho, hl, hall⟩ := ih (b + 1) hidx1
      refine ⟨{ single with Err := index.Error.map format } :: out, ?_, ?_, ?_⟩
      · rw [mergeLoop_cons_none _ _ _ _ _ item index hs hitem hindex, ho]
      · simp [hl]
      · intro i e he
        cases i with
        | zero =>
          simp only [List.getElem?_cons_zero, Option.some.injEq] at he
          subst he
          refine ⟨fun msg hm => ?_,
            fun _ => ⟨item, index, ?_, hindex, List.getElem?_cons_zero⟩⟩
          · rw [hs] at hm
            simp at hm
          · rw [rank_zero, Nat.add_zero]
            exact hitem
        | succ i =>
          rw [List.getElem?_cons_succ] at he
          rw [List.getElem?_cons_succ, rank_succ_none _ _ hs,
            show b + (rank rest i + 1) = b + 1 + rank rest i by omega]
          exact hall i e he

theorem mergeLoop_congr {α ε : Type} (format : ε → String) (items items2 : List (bulkItem ε))
    (b : Nat) (batch : List (BatchEntry α))
    (h : ∀ j, j < pending batch → items2[b + j]? = items[b + j]?) :
    mergeLoop format items2 b batch = mergeLoop format items b batch := by
  induction batch generalizing b with
  | nil => rfl
  | cons single rest ih =>
    cases hs : single.Err with
    | some msg =>
      rw [pending_cons_some _ _ msg hs] at h
      rw [mergeLoop_cons_some _ _ _ _ _ msg hs, mergeLoop_cons_some _ _ _ _ _ msg hs, ih b h]
    | none =>
      rw [pending_cons_none _ _ hs] at h
      have h0 : items2[b]? = items[b]? := by
        have := h 0 (Nat.succ_pos _)
        rwa [Nat.add_zero] at this
      have h1 : ∀ j, j < pending rest → items2[b + 1 + j]? = items[b + 1 + j]? := by
        intro j hj
        have := h (j + 1) (Nat.succ_lt_succ hj)
        rwa [show b + (j + 1) = b + 1 + j by omega] at this
      rw [mergeLoop, mergeLoop]
      simp only [hs, h0, ih (b + 1) h1]

theorem index_of_first_items {ε : Type} (items : List (bulkItem ε)) (m : Nat)
    (hlen : m ≤ items.length)
    (hall : ∀ item ∈ items.take m, item.Index.isSome = true) :
    ∀ j, j < m → ∃ item index, items[0 + j]? = some item ∧ item.Index = some index := by
  intro j hj
  have hjl : j < items.length := Nat.lt_of_lt_of_le hj hlen
  have hget : items[j]? = some items[j] := List.getElem?_eq_getElem hjl
  have hmem : items[j] ∈ items.take m := by
    apply List.getElem?_mem
    rw [List.getElem?_take_of_lt hj]
    exact hget
  have hsome := hall _ hmem
  rw [Option.isSome_iff_exists] at hsome
  obtain ⟨index, hindex⟩ := hsome
  exact ⟨items[j], index, by rw [Nat.zero_add]; exact hget, hindex⟩

theorem getElem?_eq_of_take_eq {ε : Type} (items items2 : List (bulkItem ε)) (m : Nat)
    (h : items2.take m = items.take m) : ∀ j, j < m → items2[0 + j]? = items[0 + j]? := by
  intro j hj
  rw [Nat.zero_add, ← List.getElem?_take_of_lt hj, h, List.getElem?_take_of_lt hj]

/-! ## The claims on the bulk response merge -/

/-- C14: when the decoded response has its errors flag false, `mergeBatchActionsWithErrors` and
`mergeBatchThingsWithErrors` return the batch as it is (every entry, in order, with its Err)
and no error, whatever the items of the response are. -/
theorem C14_errors_flag_false_returns_batch {α ε : Type} (format : ε → String)
    (batch : List (BatchEntry α)) (items : List (bulkItem ε)) :
    mergeBatchActionsWithErrors format batch (.ok { Errors := false, Items := items }) =
        .ok (batch, none) ∧
      mergeBatchThingsWithErrors format batch (.ok { Errors := false, Items := items }) =
        .ok (batch, none) :=
  ⟨rfl, rfl⟩

/-- Counterexample for C15: one entry without a prior error and a response with the errors
flag and one item, as many items as the claim asks for; the item has no index record, and
the merge dereferences the missing record instead of returning a batch. -/
theorem C15_counterexample :
    pending [({ Err := none, Concept := 0 } : BatchEntry Nat)] ≤
        [({ Index := none } : bulkItem String)].length ∧
      mergeBatchActionsWithErrors (fun e : String => e)
          [({ Err := none, Concept := 0 } : BatchEntry Nat)]
          (.ok { Errors := true, Items := [{ Index := none }] }) = .error .nilDereference ∧
      mergeBatchThingsWithErrors (fun e : String => e)
          [({ Err := none, Concept := 0 } : BatchEntry Nat)]
          (.ok { Errors := true, Items := [{ Index := none }] }) = .error .nilDereference :=
  ⟨by decide, rfl, rfl⟩

/-- C15 (amended): when the decoded response has its errors flag true, at least as many items
as the batch has entries without a prior error, and an index record in each of these first
items, both merges return a batch of the same length and no error; an entry with a prior error
is returned as it is and takes no item; the entry at position i without a prior error is
returned with its other fields as they were and with the error of the item at position
rank(i), the number of entries without a prior error before i: an error exactly when that item
has a non-null index error, with the formatting of that error as its message. -/
theorem C15_merge_sets_errors_by_position {α ε : Type} (format : ε → String)
    (batch : List (BatchEntry α)) (items : List (bulkItem ε))
    (hlen : pending batch ≤ items.length)
    (hindex : ∀ item ∈ items.take (pending batch), item.Index.isSome = true) :
    ∃ out,
      mergeBatchActionsWithErrors format batch (.ok { Errors := true, Items := items }) =
        .ok (out, none) ∧
      mergeBatchThingsWithErrors format batch (.ok { Errors := true, Items := items }) =
        .ok (out, none) ∧
      out.length = batch.length ∧
      ∀ i e, batch[i]? = some e →
        (∀ msg, e.Err = some msg → out[i]? = some e) ∧
        (e.Err = none → ∃ item index, items[rank batch i]? = some item ∧
          item.Index = some index ∧
          out[i]? = some { e with Err := index.Error.map format }) := by
  obtain ⟨out, ho, hl, hall⟩ := mergeLoop_ok format items 0 batch
    (index_of_first_items items (pending batch) hlen hindex)
  refine ⟨out, ?_, ?_, hl, ?_⟩
  · simp [mergeBatchActionsWithErrors, ho]
  · simp [mergeBatchThingsWithErrors, ho]
  · intro i e he
    have := hall i e he
    simpa only [Nat.zero_add] using this

/-- Witness for C15 (amended): three entries, the first with a prior error; the response has
two items, the second with an error. -/
theorem C15_merge_sets_errors_by_position_witness :
    (pending sampleBatch ≤ sampleItems.length ∧
      ∀ item ∈ sampleItems.take (pending sampleBatch), item.Index.isSome = true) ∧
    mergeBatchActionsWithErrors (fun e : String => e) sampleBatch
        (.ok { Errors := true, Items := sampleItems }) =
      .ok ([{ Err := some "invalid", Concept := 0 }, { Err := none, Concept := 1 },
        { Err := some "boom", Concept := 2 }], none) ∧
    ∃ out,
      mergeBatchActionsWithErrors (fun e : String => e) sampleBatch
          (.ok { Errors := true, Items := sampleItems }) = .ok (out, none) ∧
      mergeBatchThingsWithErrors (fun e : String => e) sampleBatch
          (.ok { Errors := true, Items := sampleItems }) = .ok (out, none) ∧
      out.length = sampleBatch.length ∧
      ∀ i e, sampleBatch[i]? = some e →
        (∀ msg, e.Err = some msg → out[i]? = some e) ∧
        (e.Err = none → ∃ item index, sampleItems[rank sampleBatch i]? = some item ∧
          item.Index = some index ∧
          out[i]? = some { e with Err := index.Error.map (fun e : String => e) }) :=
  ⟨⟨by decide, by decide⟩, rfl,
    C15_merge_sets_errors_by_position (fun e : String => e) sampleBatch sampleItems
      (by decide) (by decide)⟩

/-- C18: the merges read the response items at the positions below m only, m being the number
of entries without a prior error: two responses that agree on their first m items give the
same result.  When the response has at least m items and each of the first m items has an
index record, both merges return a batch: no index is out of range and no missing index
record is dereferenced. -/
theorem C18_reads_only_first_items {α ε : Type} (format : ε → String)
    (batch : List (BatchEntry α)) (items : List (bulkItem ε)) (errors : Bool)
    (hlen : pending batch ≤ items.length)
    (hindex : ∀ item ∈ items.take (pending batch), item.Index.isSome = true) :
    (∃ out, mergeBatchActionsWithErrors format batch
        (.ok { Errors := errors, Items := items }) = .ok (out, none)) ∧
      (∃ out, mergeBatchThingsWithErrors format batch
        (.ok { Errors := errors, Items := items }) = .ok (out, none)) ∧
      (∀ items2 : List (bulkItem ε), items2.take (pending batch) = items.take (pending batch) →
        mergeBatchActionsWithErrors format batch (.ok { Errors := errors, Items := items2 }) =
            mergeBatchActionsWithErrors format batch
              (.ok { Errors := errors, Items := items }) ∧
          mergeBatchThingsWithErrors format batch (.ok { Errors := errors, Items := items2 }) =
            mergeBatchThingsWithErrors format batch
              (.ok { Errors := errors, Items := items })) := by
  obtain ⟨out, ho, -, -⟩ := mergeLoop_ok format items 0 batch
    (index_of_first_items items (pending batch) hlen hindex)
  refine ⟨?_, ?_, ?_⟩
  · cases errors with
    | false => exact ⟨batch, rfl⟩
    | true => exact ⟨out, by simp [mergeBatchActionsWithErrors, ho]⟩
  · cases errors with
    | false => exact ⟨batch, rfl⟩
    | true => exact ⟨out, by simp [mergeBatchThingsWithErrors, ho]⟩
  · intro items2 htake
    have hc := mergeLoop_congr format items items2 0 batch
      (getElem?_eq_of_take_eq items items2 (pending batch) htake)
    cases errors with
    | false => exact ⟨rfl, rfl⟩
    | true =>
      constructor
      · simp [mergeBatchActionsWithErrors, hc]
      · simp [mergeBatchThingsWithErrors, hc]

/-- Witness for C18: the sample batch has two entries without a prior error and the sample
response has two items with index records. -/
theorem C18_reads_only_first_items_witness :
    (pending sampleBatch ≤ sampleItems.length ∧
      ∀ item ∈ sampleItems.take (pending sampleBatch), item.Index.isSome = true) ∧
    ((∃ out, mergeBatchActionsWithErrors (fun e : String => e) sampleBatch
        (.ok { Errors := true, Items := sampleItems }) = .ok (out, none)) ∧
      (∃ out, mergeBatchThingsWithErrors (fun e : String => e) sampleBatch
        (.ok { Errors := true, Items := sampleItems }) = .ok (out, none)) ∧
      (∀ items2 : List (bulkItem String),
        items2.take (pending sampleBatch) = sampleItems.take (pending sampleBatch) →
        mergeBatchActionsWithErrors (fun e : String => e) sampleBatch
            (.ok { Errors := true, Items := items2 }) =
            mergeBatchActionsWithErrors (fun e : String => e) sampleBatch
              (.ok { Errors := true, Items := sampleItems }) ∧
          mergeBatchThingsWithErrors (fun e : String => e) sampleBatch
            (.ok { Errors := true, Items := items2 }) =
            mergeBatchThingsWithErrors (fun e : String => e) sampleBatch
              (.ok { Errors := true, Items := sampleItems }))) :=
  ⟨⟨by decide, by decide⟩,
    C18_reads_only_first_items (fun e : String => e) sampleBatch sampleItems true
      (by decide) (by decide)⟩

end esvector
